import Mathlib

/-!
# Labels and the module-path codec of `label/label.go`

A shallow embedding of the Go package `label` (file `src/label/label.go`) and
the properties of its parser, renderer and one-to-one module-path codec.

Go strings are modelled as `List Char`.  Every character class that the code
tests (the three label regular expressions, the codec's escape table, the
`unicode` predicates applied to the first and last byte) is a set of ASCII
characters, on which bytes, runes and `Char` coincide; statements about the
encoder and about `ImportPathToBazelRepoName` quantify over ASCII text.  The
decoder reads its input byte by byte and branches only on the ASCII
characters `_`, `.`, `-` and `a` to `z`, so whether it returns a path or an
error, and at which position, is the same for bytes and for characters.
-/

namespace label

/-! ## Helpers from the Go standard library -/

/-- The character `c` lies in the inclusive range `lo-hi` (a regexp range
such as `A-Z`, or a Go comparison `c >= lo && c <= hi`). -/
def inRange (lo hi c : Char) : Bool :=
  decide (lo.toNat ≤ c.toNat) && decide (c.toNat ≤ hi.toNat)

/-- Go `unicode.IsDigit`, on ASCII. -/
def unicodeIsDigit (c : Char) : Bool := inRange '0' '9' c

/-- Go `unicode.IsUpper`, on ASCII. -/
def unicodeIsUpper (c : Char) : Bool := inRange 'A' 'Z' c

/-- Go `unicode.IsLetter`, on ASCII. -/
def unicodeIsLetter (c : Char) : Bool := inRange 'A' 'Z' c || inRange 'a' 'z' c

/-- Go `strings.HasPrefix`. -/
def stringsHasPrefix (s pre : List Char) : Bool := pre.isPrefixOf s

/-- Go `strings.HasSuffix`. -/
def stringsHasSuffix (s suf : List Char) : Bool := suf.isSuffixOf s

/-- Go `strings.TrimPrefix`: `s` without the leading `pre` if it has one. -/
def stringsTrimPrefix (s pre : List Char) : List Char :=
  if stringsHasPrefix s pre then s.drop pre.length else s

/-- Go `strings.TrimSuffix`: `s` without the trailing `suf` if it has one. -/
def stringsTrimSuffix (s suf : List Char) : List Char :=
  if stringsHasSuffix s suf then s.take (s.length - suf.length) else s

/-- The scan of `strings.Index`: the first position, counted from `i`, at
which `substr` occurs, or `-1`. -/
def stringsIndexAux (substr : List Char) : List Char → Nat → Int
  | [], i => if substr.isPrefixOf [] then (i : Int) else -1
  | c :: cs, i =>
    if substr.isPrefixOf (c :: cs) then (i : Int) else stringsIndexAux substr cs (i + 1)

/-- Go `strings.Index`: index of the first instance of `substr` in `s`, or
`-1` when there is none. -/
def stringsIndex (s substr : List Char) : Int := stringsIndexAux substr s 0

/-- The text after the last `'/'` of `path`, or all of `path` when it has
none: `path[i+1:]` for `i := LastIndexByteString(path, '/')` in Go
`path.Base`. -/
def afterLastSlash : List Char → List Char
  | [] => []
  | c :: cs => if cs.contains '/' then afterLastSlash cs else if c = '/' then cs else c :: cs

/-- The loop of Go `path.Base` that strips trailing slashes. -/
def stripTrailingSlashes (path : List Char) : List Char :=
  (path.reverse.dropWhile (fun c => c == '/')).reverse

/-- Go `path.Base`: the last element of `path`; trailing slashes are removed
first, the empty path gives `"."` and a path of slashes only gives `"/"`. -/
def pathBase (path : List Char) : List Char :=
  if path = [] then ['.']
  else
    let stripped := afterLastSlash (stripTrailingSlashes path)
    if stripped = [] then ['/'] else stripped

/-! ## The label model -/

/-- A `Label` as in `label.go`: repository, package, target name and the
relative flag. -/
structure Label where
  Repo : List Char
  Pkg : List Char
  Name : List Char
  Relative : Bool
  deriving DecidableEq, Repr

/-- `New` constructs a label from components (never relative). -/
def New (repo pkg name : List Char) : Label :=
  { Repo := repo, Pkg := pkg, Name := name, Relative := false }

/-- `NoLabel` is the zero value of `Label`. -/
def NoLabel : Label := { Repo := [], Pkg := [], Name := [], Relative := false }

/-- The causes of a label parse error, one per `fmt.Errorf` in `Parse`. -/
inductive ParseError where
  | repositoryHasInvalidCharacters
  | packageHasInvalidCharacters
  | emptyName
  | nameHasInvalidCharacters
  | emptyPackageAndName
  deriving DecidableEq, Repr

/-- First character of `labelRepoRegexp`'s second alternative: `[A-Za-z.-]`. -/
def isRepoFirstChar (c : Char) : Bool :=
  inRange 'A' 'Z' c || inRange 'a' 'z' c || c == '.' || c == '-'

/-- Further characters of `labelRepoRegexp`: `[A-Za-z0-9_.-]`. -/
def isRepoChar (c : Char) : Bool :=
  inRange 'A' 'Z' c || inRange 'a' 'z' c || inRange '0' '9' c
    || c == '_' || c == '.' || c == '-'

/-- Matching against `labelRepoRegexp`, the pattern
`^@$|^[A-Za-z.-][A-Za-z0-9_.-]*$`. -/
def labelRepoRegexp (s : List Char) : Bool :=
  s == ['@'] ||
    (match s with
     | [] => false
     | c :: rest => isRepoFirstChar c && rest.all isRepoChar)

/-- The class of `labelPkgRegexp`: `[A-Za-z0-9/._@-]`. -/
def isPkgChar (c : Char) : Bool :=
  inRange 'A' 'Z' c || inRange 'a' 'z' c || inRange '0' '9' c
    || c == '/' || c == '.' || c == '_' || c == '@' || c == '-'

/-- Matching against `labelPkgRegexp`, the pattern `^[A-Za-z0-9/._@-]*$`. -/
def labelPkgRegexp (s : List Char) : Bool := s.all isPkgChar

/-- The class of `labelNameRegexp`, item by item in the order of the source:
`A-Z a-z 0-9 ! %-@ ^ _` then the back quote, the space, the double quote,
`# $ &`, the single quote, `( )`, the range `*-+`, `, ; < = > ? [ ] { | } ~ / .`.
The item `%-@` is a range (U+0025 to U+0040), as is `*-+`. -/
def isNameChar (c : Char) : Bool :=
  inRange 'A' 'Z' c || inRange 'a' 'z' c || inRange '0' '9' c
    || c == '!' || inRange '%' '@' c || c == '^' || c == '_'
    || c == Char.ofNat 96 || c == ' ' || c == Char.ofNat 34
    || c == '#' || c == '$' || c == '&' || c == Char.ofNat 39
    || c == '(' || c == ')' || inRange '*' '+' c || c == ',' || c == ';'
    || c == '<' || c == '=' || c == '>' || c == '?' || c == '[' || c == ']'
    || c == '{' || c == '|' || c == '}' || c == '~' || c == '/' || c == '.'

/-- Matching against `labelNameRegexp`. -/
def labelNameRegexp (s : List Char) : Bool := s.all isNameChar

/-- The three-way split on `endRepo := strings.Index(s, "//")` inside the
`"@"` block of `Parse`: the new `repo` and the new `s`. -/
def splitRepo (s : List Char) : List Char × List Char :=
  let endRepo := stringsIndex s ['/', '/']
  if endRepo > 1 then ((s.take endRepo.toNat).drop 1, s.drop endRepo.toNat)
  else if endRepo = 1 then (s.take 1, s.drop 1)
  else (s.drop 1, ['/', '/', ':'] ++ s.drop 1)

/-- The repository stage of `Parse` (the `if strings.HasPrefix(s, "@")`
block): the new values of `relative`, `repo` and `s`, or the error. -/
def parseRepo (s : List Char) : Except ParseError (Bool × List Char × List Char) :=
  if stringsHasPrefix s ['@'] then
    if !labelRepoRegexp (splitRepo s).1 then .error .repositoryHasInvalidCharacters
    else .ok (false, (splitRepo s).1, (splitRepo s).2)
  else .ok (true, [], s)

/-- The split on `endPkg := strings.Index(s, ":")` inside the `"//"` block
of `Parse`: the new `pkg` and the new `s`. -/
def splitPkg (s : List Char) : List Char × List Char :=
  let endPkg := stringsIndex s [':']
  if endPkg < 0 then (s.drop 2, [])
  else ((s.take endPkg.toNat).drop 2, s.drop endPkg.toNat)

/-- The package stage of `Parse` (the `if strings.HasPrefix(s, "//")`
block), given the current `relative` and `s`: the new values of `relative`,
`pkg` and `s`, or the error. -/
def parsePkg (relative : Bool) (s : List Char) :
    Except ParseError (Bool × List Char × List Char) :=
  if stringsHasPrefix s ['/', '/'] then
    if !labelPkgRegexp (splitPkg s).1 then .error .packageHasInvalidCharacters
    else .ok (false, (splitPkg s).1, (splitPkg s).2)
  else .ok (relative, [], s)

/-- The name stage of `Parse`: from `s == ":"` to the returned label. -/
def parseName (relative : Bool) (repo pkg s : List Char) : Except ParseError Label :=
  if s = [':'] then .error .emptyName
  else
    let name := stringsTrimPrefix s [':']
    if !labelNameRegexp name then .error .nameHasInvalidCharacters
    else if pkg = [] ∧ name = [] then .error .emptyPackageAndName
    else
      let name := if name = [] then pathBase pkg else name
      .ok { Repo := repo, Pkg := pkg, Name := name, Relative := relative }

/-- The three stages of `Parse` in sequence. -/
def parseStages (s : List Char) : Except ParseError Label :=
  match parseRepo s with
  | .error e => .error e
  | .ok (relative, repo, s1) =>
    match parsePkg relative s1 with
    | .error e => .error e
    | .ok (relative, pkg, s2) => parseName relative repo pkg s2

/-- `Parse` reads a label from a string.  The Go function returns a pair: the
label with a nil error, or `NoLabel` with the error. -/
def Parse (s : List Char) : Label × Option ParseError :=
  match parseStages s with
  | .ok l => (l, none)
  | .error e => (NoLabel, some e)

/-- `Label.String`: the canonical text of a label. -/
def Label.String (l : Label) : List Char :=
  if l.Relative then ':' :: l.Name
  else
    let repo := if l.Repo ≠ [] ∧ l.Repo ≠ ['@'] then '@' :: l.Repo else l.Repo
    if pathBase l.Pkg = l.Name then repo ++ ['/', '/'] ++ l.Pkg
    else repo ++ ['/', '/'] ++ l.Pkg ++ [':'] ++ l.Name

/-- `Label.Abs`: an absolute label from this one. -/
def Label.Abs (l : Label) (repo pkg : List Char) : Label :=
  if !l.Relative then l
  else { Repo := repo, Pkg := pkg, Name := l.Name, Relative := false }

/-- `Label.Rel`: a relative label from this one where possible. -/
def Label.Rel (l : Label) (repo pkg : List Char) : Label :=
  if l.Relative ∨ l.Repo ≠ repo then l
  else if l.Pkg = pkg then { Repo := [], Pkg := [], Name := l.Name, Relative := true }
  else { Repo := [], Pkg := l.Pkg, Name := l.Name, Relative := false }

/-- `Label.Equal`: field-by-field equality. -/
def Label.Equal (l other : Label) : Bool :=
  l.Repo == other.Repo && l.Pkg == other.Pkg && l.Name == other.Name
    && l.Relative == other.Relative

/-- Modelled from the spec: `pathtools.HasPrefix` of the package `pathtools`,
which is not among the sources.  The slash-delimited prefix test: `p` is
`pre`, or `p` begins with `pre` followed by a slash; the empty path, which has
no component, is a prefix of every path. -/
def pathtoolsHasPrefix (p pre : List Char) : Bool :=
  pre == [] || p == pre || stringsHasPrefix p (pre ++ ['/'])

/-- The two fatal conditions of `Label.Contains`, one per `log.Panicf`. -/
inductive ContainsPanic where
  | lMustNotBeRelative
  | otherMustNotBeRelative
  deriving DecidableEq, Repr

/-- `Label.Contains`: whether `other` is in the package of `l` or in a
sub-package.  The result is the boolean it returns, or the panic it raises. -/
def Label.Contains (l other : Label) : Except ContainsPanic Bool :=
  if l.Relative then .error .lMustNotBeRelative
  else if other.Relative then .error .otherMustNotBeRelative
  else .ok (l.Repo == other.Repo && pathtoolsHasPrefix other.Pkg l.Pkg)

/-! ## Import paths -/

/-- Go `strings.ToLower`, on ASCII. -/
def stringsToLower (s : List Char) : List Char := s.map Char.toLower

/-- Go `strings.Split(s, sep)` for a separator `sep` of one character. -/
def stringsSplit (sep : Char) : List Char → List (List Char)
  | [] => [[]]
  | c :: cs =>
    if c = sep then [] :: stringsSplit sep cs
    else
      match stringsSplit sep cs with
      | [] => [[c]]
      | e :: es => (c :: e) :: es

/-- Go `strings.Join(elems, sep)`. -/
def stringsJoin (sep : List Char) : List (List Char) → List Char
  | [] => []
  | [e] => e
  | e :: e1 :: es => e ++ sep ++ stringsJoin sep (e1 :: es)

/-- The regexp class `\w`: `[0-9A-Za-z_]`. -/
def isWordChar (c : Char) : Bool :=
  inRange '0' '9' c || inRange 'A' 'Z' c || inRange 'a' 'z' c || c == '_'

/-- The scan of `nonWordRe.ReplaceAllString(s, "_")` for the pattern `\W+`:
`inRun` tells that the preceding character was part of a run of non-word
characters, for which the `_` has been written already. -/
def nonWordReplaceAux : Bool → List Char → List Char
  | _, [] => []
  | inRun, c :: cs =>
    if isWordChar c then c :: nonWordReplaceAux false cs
    else if inRun then nonWordReplaceAux true cs
    else '_' :: nonWordReplaceAux true cs

/-- `nonWordRe.ReplaceAllString(s, "_")`: every maximal run of non-word
characters becomes one underscore. -/
def nonWordReplaceAll (s : List Char) : List Char := nonWordReplaceAux false s

/-- `ImportPathToBazelRepoName` converts a Go import path into a Bazel
repository name. -/
def ImportPathToBazelRepoName (importpath : List Char) : List Char :=
  let importpath := stringsToLower importpath
  let components := stringsSplit '/' importpath
  let labels := stringsSplit '.' (components.headD [])
  let reversed := labels.reverse
  let repo := stringsJoin ['.'] (reversed ++ components.tail)
  nonWordReplaceAll repo

/-! ## The one-to-one codec -/

/-- The body of the `switch` in `ModulePathToBazelRepoNameOneToOne`: what one
rune of the module path writes to the repository name. -/
def escapeRune (r : Char) : List Char :=
  if r = '_' then ['.', '_', '.']
  else if r = '~' then ['.', '_', '-']
  else if r = '/' then ['_']
  else if inRange 'A' 'Z' r then ['.', '_', r.toLower]
  else [r]

/-- Step 1 of the encoder: a leading digit, upper-case letter, `_` or `.`
`C` is replaced by `a~C.a`. -/
def escapeLeading (first : Char) (rest : List Char) : List Char :=
  if unicodeIsDigit first || unicodeIsUpper first || first = '_' || first = '.' then
    ['a', '~', first, '.', 'a'] ++ rest
  else first :: rest

/-- Step 2 of the encoder: `/con` is appended when the last character is
neither a digit nor a letter.  `none` is the index fault on an empty string. -/
def padTrailing (modulePath : List Char) : Option (List Char) :=
  match modulePath.getLast? with
  | none => none
  | some last =>
    if !unicodeIsDigit last && !unicodeIsLetter last then
      some (modulePath ++ ['/', 'c', 'o', 'n'])
    else some modulePath

/-- `ModulePathToBazelRepoNameOneToOne`.  `none` is the run-time fault of
`modulePath[0]` on the empty string. -/
def ModulePathToBazelRepoNameOneToOne (modulePath : List Char) : Option (List Char) :=
  match modulePath with
  | [] => none
  | first :: rest =>
    match padTrailing (escapeLeading first rest) with
    | none => none
    | some padded => some (padded.flatMap escapeRune)

/-- What a call of `BazelRepoNameToModulePathOneToOne` does: it returns a
module path with a nil error, returns one of its two errors, faults on an
index out of range, or is cut off by the step bound of the model. -/
inductive DecodeResult where
  | ok (modulePath : List Char)
  | invalidEscapeAtEnd
  | invalidEscape (c : Char)
  | indexOutOfRange
  | outOfFuel
  deriving DecidableEq, Repr

/-- `escapedLeadingCharacterPattern.ReplaceAllString(s, "$1")` for the
pattern `^a~(.)\.a`: the anchored match is replaced by its group; `.` does
not match a line feed. -/
def replaceEscapedLeading (s : List Char) : List Char :=
  match s with
  | c0 :: c1 :: x :: c3 :: c4 :: rest =>
    if c0 = 'a' ∧ c1 = '~' ∧ x ≠ Char.ofNat 10 ∧ c3 = '.' ∧ c4 = 'a' then x :: rest else s
  | _ => s

/-- The `for pos < len(repoName)` loop of the decoder, as a function of the
remaining steps, `pos` and the text written to `mp`, followed by the final
`return`. -/
def decodeLoop (repoName : List Char) : Nat → Nat → List Char → DecodeResult
  | 0, _, _ => .outOfFuel
  | fuel + 1, pos, mp =>
    if pos < repoName.length then
      match repoName[pos]? with
      | none => .indexOutOfRange
      | some c =>
        if c = '_' then decodeLoop repoName fuel (pos + 1) (mp ++ ['/'])
        else if c ≠ '.' ∨ pos + 1 = repoName.length then
          decodeLoop repoName fuel (pos + 1) (mp ++ [c])
        else
          match repoName[pos + 1]? with
          | none => .indexOutOfRange
          | some c1 =>
            if c1 ≠ '_' then decodeLoop repoName fuel (pos + 1) (mp ++ [c])
            else if pos + 2 = repoName.length then .invalidEscapeAtEnd
            else
              match repoName[pos + 2]? with
              | none => .indexOutOfRange
              | some c2 =>
                if c2 = '.' then decodeLoop repoName fuel (pos + 3) (mp ++ ['_'])
                else if c2 = '-' then decodeLoop repoName fuel (pos + 3) (mp ++ ['~'])
                else if inRange 'a' 'z' c2 then
                  decodeLoop repoName fuel (pos + 3) (mp ++ [c2.toUpper])
                else .invalidEscape c2
    else .ok (stringsTrimSuffix (replaceEscapedLeading mp) ['/', 'c', 'o', 'n'])

/-- `BazelRepoNameToModulePathOneToOne`: the loop from `pos = 0` with an
empty builder.  Every iteration advances `pos`, so `len(repoName) + 1` steps
are enough. -/
def BazelRepoNameToModulePathOneToOne (repoName : List Char) : DecodeResult :=
  decodeLoop repoName (repoName.length + 1) 0 []

/-- The class `[a-z0-9_.-]` of `bazelRepoNamePattern`. -/
def isBazelRepoNameChar (d : Char) : Bool :=
  inRange 'a' 'z' d || inRange '0' '9' d || d == '_' || d == '.' || d == '-'

/-- The pattern `bazelRepoNamePattern` of `label_test.go`,
`^[a-z][a-z0-9_.-]*[a-z0-9]$`, as a matcher. -/
def bazelRepoNamePattern (s : List Char) : Bool :=
  match s with
  | [] => false
  | c :: rest =>
    inRange 'a' 'z' c &&
      (match rest.getLast? with
       | none => false
       | some l =>
         (inRange 'a' 'z' l || inRange '0' '9' l) && rest.dropLast.all isBazelRepoNameChar)

/-! ## Valid module paths -/

/-- Go `strings.Split(s, "/")`: the elements of a slash-separated path. -/
def splitSlash : List Char → List (List Char)
  | [] => [[]]
  | c :: cs =>
    if c = '/' then [] :: splitSlash cs
    else
      match splitSlash cs with
      | [] => [[c]]
      | e :: es => (c :: e) :: es

/-- The characters of a Go module path: `[-A-Za-z0-9_.~/]`. -/
def isModulePathChar (c : Char) : Bool :=
  inRange 'A' 'Z' c || inRange 'a' 'z' c || inRange '0' '9' c
    || c == '_' || c == '.' || c == '~' || c == '/' || c == '-'

/-- A path element is not empty and neither begins nor ends with a dot. -/
def validPathElement (e : List Char) : Bool :=
  !e.isEmpty && e.head? != some '.' && e.getLast? != some '.'

/-- The characters of the leading path element: lower-case letters, digits,
dots and dashes. -/
def isLeadingElementChar (c : Char) : Bool :=
  inRange 'a' 'z' c || inRange '0' '9' c || c == '.' || c == '-'

/-- The leading path element has only lower-case letters, digits, dots and
dashes, does not start with a dash and contains a dot. -/
def validLeadingElement (e : List Char) : Bool :=
  e.all isLeadingElementChar && e.head? != some '-' && e.contains '.'

/-- The shape of a valid Go module path (`module.CheckPath` of
`golang.org/x/mod`, which the tests of the codec use as the domain): not
empty, over `[-A-Za-z0-9_.~/]`, no element empty or beginning or ending with a
dot, and a leading element of lower-case letters, digits, dots and dashes
that contains a dot and does not start with a dash. -/
def validModulePathShape (p : List Char) : Bool :=
  !p.isEmpty && p.all isModulePathChar && (splitSlash p).all validPathElement
    && validLeadingElement ((splitSlash p).headD [])

/-- The file names reserved on Windows, in lower case. -/
def windowsReservedNames : List (List Char) :=
  ["con", "prn", "aux", "nul",
   "com1", "com2", "com3", "com4", "com5", "com6", "com7", "com8", "com9",
   "lpt1", "lpt2", "lpt3", "lpt4", "lpt5", "lpt6", "lpt7", "lpt8", "lpt9"].map String.toList

/-- The prefix of a path element up to its first dot is a reserved file name
on Windows, regardless of case. -/
def isWindowsReserved (e : List Char) : Bool :=
  windowsReservedNames.contains ((e.takeWhile (fun c => c != '.')).map Char.toLower)

/-- A valid Go module path: the shape above, and no element whose prefix up
to its first dot is a reserved file name on Windows. -/
def validModulePath (p : List Char) : Bool :=
  validModulePathShape p && (splitSlash p).all (fun e => !isWindowsReserved e)

/-- No `'.'` of `q` is directly followed by `'/'`. -/
def NoDotSlash (q : List Char) : Prop :=
  List.Chain' (fun a b => ¬ (a = '.' ∧ b = '/')) q

/-- The text the decoder returns once the scan has written `mp`: the argument
of its final `return`. -/
def decodeFinish (mp : List Char) : List Char :=
  stringsTrimSuffix (replaceEscapedLeading mp) ['/', 'c', 'o', 'n']

/-- The decoder's scan as a function of the text that remains at `pos` and of
the text written so far: the form of `decodeLoop` that the proofs reason
about. -/
def decodeScan : List Char → List Char → DecodeResult
  | [], mp => .ok (decodeFinish mp)
  | [c], mp => .ok (decodeFinish (mp ++ [if c = '_' then '/' else c]))
  | [c, c1], mp =>
    if c = '_' then decodeScan [c1] (mp ++ ['/'])
    else if c ≠ '.' ∨ c1 ≠ '_' then decodeScan [c1] (mp ++ [c])
    else .invalidEscapeAtEnd
  | c :: c1 :: c2 :: rest, mp =>
    if c = '_' then decodeScan (c1 :: c2 :: rest) (mp ++ ['/'])
    else if c ≠ '.' ∨ c1 ≠ '_' then decodeScan (c1 :: c2 :: rest) (mp ++ [c])
    else if c2 = '.' then decodeScan rest (mp ++ ['_'])
    else if c2 = '-' then decodeScan rest (mp ++ ['~'])
    else if inRange 'a' 'z' c2 then decodeScan rest (mp ++ [c2.toUpper])
    else .invalidEscape c2

/-! ## Notions used to state the properties -/

/-- The invariant of relative labels: a relative label has neither a
repository nor a package. -/
def relativeInvariant (l : Label) : Prop :=
  l.Relative = true → l.Repo = [] ∧ l.Pkg = []

/-- The canonical text of a label when the name is compared with the final
path segment of the package, the text after its last slash: `:name` for a
relative label, otherwise the repository part (`""`, `"@"` or `"@" + repo`),
`//`, the package, and `:name` unless the name is that final segment. -/
def canonicalRendering (l : Label) : List Char :=
  if l.Relative then ':' :: l.Name
  else
    let P := if l.Repo = [] then [] else if l.Repo = ['@'] then ['@'] else '@' :: l.Repo
    let S := if l.Name = afterLastSlash l.Pkg then [] else ':' :: l.Name
    P ++ ['/', '/'] ++ l.Pkg ++ S

/-- The components of a slash-separated path; the empty path has none. -/
def pathComponents (p : List Char) : List (List Char) :=
  if p = [] then [] else splitSlash p

/-- A piece of an import path: a non-empty string of letters, digits and
underscores. -/
def isWordPiece (x : List Char) : Bool := !x.isEmpty && x.all isWordChar

/-- The decoder returned one of its two errors. -/
def DecodeResult.isError : DecodeResult → Bool
  | .invalidEscapeAtEnd => true
  | .invalidEscape _ => true
  | _ => false

/-- The text `s` begins with `._` followed by a character that is not `.`,
`-` or a lower-case letter, or followed by the end of the text. -/
def startsInvalidEscape (s : List Char) : Bool :=
  match s with
  | c :: c1 :: rest =>
    c == '.' && c1 == '_' &&
      (match rest with
       | [] => true
       | c2 :: _ => !(c2 == '.' || c2 == '-' || inRange 'a' 'z' c2))
  | _ => false

/-- The text `r` contains, at some position, `._` followed by a character
that is not `.`, `-` or a lower-case letter, or followed by the end of `r`. -/
def containsInvalidEscape : List Char → Bool
  | [] => false
  | c :: rest => startsInvalidEscape (c :: rest) || containsInvalidEscape rest

/-- The characters of a typical module path: lower-case letters, digits, `.`,
`-` and `/`. -/
def isTypicalPathChar (c : Char) : Bool :=
  inRange 'a' 'z' c || inRange '0' '9' c || c == '.' || c == '-' || c == '/'

/-- A typical module path: over the characters above, starting with a
lower-case letter and ending with a letter or a digit. -/
def typicalModulePath (p : List Char) : Bool :=
  p.all isTypicalPathChar &&
    (match p.head? with
     | some c => inRange 'a' 'z' c
     | none => false) &&
    (match p.getLast? with
     | some l => unicodeIsLetter l || unicodeIsDigit l
     | none => false)

/-- The source alphabet of the codec: a non-empty string of letters, digits
and the characters `_`, `-`, `.`, `~`, `/` that neither starts nor ends with
a dot. -/
def inSourceAlphabet (p : List Char) : Bool :=
  !p.isEmpty && p.all isModulePathChar && p.head? != some '.' && p.getLast? != some '.'

/-- Some `'.'` of `p` is directly followed by `'/'`. -/
def hasDotSlash : List Char → Bool
  | c :: d :: rest => (c == '.' && d == '/') || hasDotSlash (d :: rest)
  | _ => false

/-- Matching against `escapedLeadingCharacterPattern`, the pattern
`^a~(.)\.a`: the text begins with the escape `a~C.a` of a leading
character. -/
def escapedLeadingCharacterPattern (s : List Char) : Bool :=
  match s with
  | c0 :: c1 :: x :: c3 :: c4 :: _ =>
    c0 == 'a' && c1 == '~' && x != Char.ofNat 10 && c3 == '.' && c4 == 'a'
  | _ => false

/-- The part of the source alphabet on which the encoding can be undone: no
`./` inside, no `/con` at the end and no `a~C.a` at the start. -/
def reversibleSource (p : List Char) : Bool :=
  inSourceAlphabet p && !hasDotSlash p && !stringsHasSuffix p ['/', 'c', 'o', 'n']
    && !escapedLeadingCharacterPattern p

/-- The lower-case form of a character, spelled out: an upper-case letter
`A` to `Z` becomes the letter 32 code points above it, `a` to `z`, and every
other character is kept. -/
def lowerCaseOf (c : Char) : Char :=
  if inRange 'A' 'Z' c then Char.ofNat (c.toNat + 32) else c

/-- The text that follows a `._` does not continue an escape: it is empty, or
begins with a character that is not `.`, `-` or a lower-case letter. -/
def invalidEscapeTail (rest : List Char) : Bool :=
  match rest with
  | [] => true
  | c2 :: _ => !(c2 == '.' || c2 == '-' || inRange 'a' 'z' c2)

/-- The text is ASCII. -/
def isASCII (s : List Char) : Bool := s.all (fun c => decide (c.toNat < 128))

/-- A character that no encoded name contains: `~`, `/` or an upper-case
letter. -/
def isNeverWritten (c : Char) : Bool := c == '~' || c == '/' || inRange 'A' 'Z' c

/-! ## Properties of the label parser and renderer -/

theorem pathBase_ne_nil (p : List Char) : pathBase p ≠ [] := by
  unfold pathBase
  split
  · simp
  · simp only
    split <;> simp_all

theorem parseStages_ok_iff (s : List Char) (l : Label) :
    parseStages s = .ok l ↔
      ∃ rel repo s1 rel1 pkg s2, parseRepo s = .ok (rel, repo, s1) ∧
        parsePkg rel s1 = .ok (rel1, pkg, s2) ∧ parseName rel1 repo pkg s2 = .ok l := by
  unfold parseStages
  constructor
  · intro h
    split at h
    · simp at h
    · rename_i rel repo s1 h1
      split at h
      · simp at h
      · rename_i rel1 pkg s2 h2
        exact ⟨rel, repo, s1, rel1, pkg, s2, h1, h2, h⟩
  · rintro ⟨rel, repo, s1, rel1, pkg, s2, h1, h2, h3⟩
    simp only [h1, h2, h3]

theorem Parse_ok_iff (s : List Char) :
    (Parse s).2 = none ↔ parseStages s = .ok (Parse s).1 := by
  unfold Parse
  split <;> simp_all

theorem parseRepo_rel (s : List Char) (rel : Bool) (repo s1 : List Char)
    (h : parseRepo s = .ok (rel, repo, s1)) :
    rel = !stringsHasPrefix s ['@'] ∧ (rel = true → repo = [] ∧ s1 = s) := by
  unfold parseRepo at h
  split at h
  · rename_i hp
    split at h
    · simp at h
    · simp only [Except.ok.injEq, Prod.mk.injEq] at h
      simp [← h.1, hp]
  · rename_i hp
    simp only [Except.ok.injEq, Prod.mk.injEq] at h
    simp [← h.1, ← h.2.1, ← h.2.2, hp]

theorem parsePkg_rel (rel : Bool) (s : List Char) (rel1 : Bool) (pkg s2 : List Char)
    (h : parsePkg rel s = .ok (rel1, pkg, s2)) :
    rel1 = (rel && !stringsHasPrefix s ['/', '/']) ∧ (rel1 = true → pkg = []) := by
  unfold parsePkg at h
  split at h
  · rename_i hp
    split at h
    · simp at h
    · simp only [Except.ok.injEq, Prod.mk.injEq] at h
      simp [← h.1, hp]
  · rename_i hp
    simp only [Except.ok.injEq, Prod.mk.injEq] at h
    simp [← h.1, ← h.2.1, hp]

theorem parseName_fields (rel : Bool) (repo pkg s : List Char) (l : Label)
    (h : parseName rel repo pkg s = .ok l) :
    l.Relative = rel ∧ l.Repo = repo ∧ l.Pkg = pkg ∧ l.Name ≠ [] := by
  unfold parseName at h
  split at h
  · simp at h
  · dsimp only at h
    split at h
    · simp at h
    · split at h
      · simp at h
      · rename_i hne
        simp only [Except.ok.injEq] at h
        subst h
        refine ⟨rfl, rfl, rfl, ?_⟩
        dsimp only
        split
        · exact pathBase_ne_nil pkg
        · assumption

/-- C7. When `Parse s` succeeds, the label it returns is relative exactly
when `s` begins with neither `"@"` nor `"//"`. -/
theorem Parse_relative_iff (s : List Char) (h : (Parse s).2 = none) :
    (Parse s).1.Relative = true ↔
      (stringsHasPrefix s ['@'] = false ∧ stringsHasPrefix s ['/', '/'] = false) := by
  rw [Parse_ok_iff, parseStages_ok_iff] at h
  obtain ⟨rel, repo, s1, rel1, pkg, s2, h1, h2, h3⟩ := h
  have a := parseRepo_rel _ _ _ _ h1
  have b := parsePkg_rel _ _ _ _ _ h2
  have c := parseName_fields _ _ _ _ _ h3
  rw [c.1, b.1, a.1]
  cases hp : stringsHasPrefix s ['@']
  · have := a.2 (by simp [a.1, hp])
    simp [this.2]
  · simp

/-- Witness of C7 at the input `":a"`. -/
theorem Parse_relative_iff_witness :
    (Parse [':', 'a']).2 = none ∧
      ((Parse [':', 'a']).1.Relative = true ↔
        (stringsHasPrefix [':', 'a'] ['@'] = false ∧
          stringsHasPrefix [':', 'a'] ['/', '/'] = false)) :=
  ⟨by decide, Parse_relative_iff [':', 'a'] (by decide)⟩

/-- C8. When `Parse s` succeeds, the name of the label it returns is not the
empty string. -/
theorem Parse_name_ne_nil (s : List Char) (h : (Parse s).2 = none) :
    (Parse s).1.Name ≠ [] := by
  rw [Parse_ok_iff, parseStages_ok_iff] at h
  obtain ⟨rel, repo, s1, rel1, pkg, s2, h1, h2, h3⟩ := h
  exact (parseName_fields _ _ _ _ _ h3).2.2.2

/-- Witness of C8 at the input `"//a/b"`, whose name is defaulted. -/
theorem Parse_name_ne_nil_witness :
    (Parse ['/', '/', 'a', '/', 'b']).2 = none ∧
      (Parse ['/', '/', 'a', '/', 'b']).1.Name ≠ [] :=
  ⟨by decide, Parse_name_ne_nil ['/', '/', 'a', '/', 'b'] (by decide)⟩

/-- C9. The invariant "a relative label has an empty repository and an empty
package" holds of every label returned by a successful `Parse`, and `Abs`
and `Rel` preserve it for all arguments. -/
theorem relativeInvariant_Parse_Abs_Rel :
    (∀ s, (Parse s).2 = none → relativeInvariant (Parse s).1) ∧
      (∀ (l : Label) (r p : List Char), relativeInvariant l →
        relativeInvariant (l.Abs r p) ∧ relativeInvariant (l.Rel r p)) := by
  constructor
  · intro s h
    rw [Parse_ok_iff, parseStages_ok_iff] at h
    obtain ⟨rel, repo, s1, rel1, pkg, s2, h1, h2, h3⟩ := h
    have a := parseRepo_rel _ _ _ _ h1
    have b := parsePkg_rel _ _ _ _ _ h2
    have c := parseName_fields _ _ _ _ _ h3
    intro hr
    rw [c.1] at hr
    rw [c.2.1, c.2.2.1]
    have hrel : rel = true := by
      have hb := b.1
      rw [hr] at hb
      cases rel
      · simp at hb
      · rfl
    exact ⟨(a.2 hrel).1, b.2 hr⟩
  · intro l r p hl
    constructor
    · unfold Label.Abs
      split
      · exact hl
      · intro h; simp at h
    · unfold Label.Rel
      split
      · exact hl
      · split
        · intro _; exact ⟨rfl, rfl⟩
        · intro h; simp at h


/-- Witness of C9: the label parsed from `"a"`, and a relative label taken
through `Abs` and `Rel`. -/
theorem relativeInvariant_Parse_Abs_Rel_witness :
    (Parse ['a']).2 = none ∧ relativeInvariant (Parse ['a']).1 ∧
      relativeInvariant
        (Label.Abs { Repo := [], Pkg := [], Name := ['a'], Relative := true } ['r'] ['p']) ∧
      relativeInvariant
        (Label.Rel { Repo := [], Pkg := [], Name := ['a'], Relative := true } ['r'] ['p']) :=
  ⟨by decide, relativeInvariant_Parse_Abs_Rel.1 ['a'] (by decide),
    relativeInvariant_Parse_Abs_Rel.2
      { Repo := [], Pkg := [], Name := ['a'], Relative := true } ['r'] ['p']
      (fun _ => ⟨rfl, rfl⟩)⟩

theorem stringsIndexAux_two_found (c : Char) (pre rest : List Char) (i : Nat) (h : c ∉ pre) :
    stringsIndexAux [c, c] (pre ++ c :: c :: rest) i = (i + pre.length : Nat) := by
  induction pre generalizing i with
  | nil => simp [stringsIndexAux, List.isPrefixOf]
  | cons x xs ih =>
    have hx : x ≠ c := fun e => h (by simp [e])
    have hxs : c ∉ xs := fun e => h (by simp [e])
    have hc : (c == x) = false := by simpa using fun e => hx e.symm
    simp only [List.cons_append, stringsIndexAux, List.isPrefixOf, hc, Bool.false_and]
    rw [if_neg (by simp), List.append_eq, ih _ hxs]
    simp only [List.length_cons]
    congr 1
    omega

theorem stringsIndexAux_two_none (c : Char) (s : List Char) (i : Nat) (h : c ∉ s) :
    stringsIndexAux [c, c] s i = -1 := by
  induction s generalizing i with
  | nil => simp [stringsIndexAux, List.isPrefixOf]
  | cons x xs ih =>
    have hx : x ≠ c := fun e => h (by simp [e])
    have hxs : c ∉ xs := fun e => h (by simp [e])
    have hc : (c == x) = false := by simpa using fun e => hx e.symm
    simp only [stringsIndexAux, List.isPrefixOf, hc, Bool.false_and]
    rw [if_neg (by simp), ih _ hxs]

theorem stringsIndexAux_one_found (c : Char) (pre rest : List Char) (i : Nat) (h : c ∉ pre) :
    stringsIndexAux [c] (pre ++ c :: rest) i = (i + pre.length : Nat) := by
  induction pre generalizing i with
  | nil => simp [stringsIndexAux, List.isPrefixOf]
  | cons x xs ih =>
    have hx : x ≠ c := fun e => h (by simp [e])
    have hxs : c ∉ xs := fun e => h (by simp [e])
    have hc : (c == x) = false := by simpa using fun e => hx e.symm
    simp only [List.cons_append, stringsIndexAux, List.isPrefixOf, hc, Bool.false_and]
    rw [if_neg (by simp), List.append_eq, ih _ hxs]
    simp only [List.length_cons]
    congr 1
    omega

theorem stringsIndexAux_one_none (c : Char) (s : List Char) (i : Nat) (h : c ∉ s) :
    stringsIndexAux [c] s i = -1 := by
  induction s generalizing i with
  | nil => simp [stringsIndexAux, List.isPrefixOf]
  | cons x xs ih =>
    have hx : x ≠ c := fun e => h (by simp [e])
    have hxs : c ∉ xs := fun e => h (by simp [e])
    have hc : (c == x) = false := by simpa using fun e => hx e.symm
    simp only [stringsIndexAux, List.isPrefixOf, hc, Bool.false_and]
    rw [if_neg (by simp), ih _ hxs]

theorem isPkgChar_ne_colon (c : Char) (h : isPkgChar c = true) : c ≠ ':' := by
  rintro rfl
  revert h
  decide

theorem isRepoChar_ne_slash (c : Char) (h : isRepoChar c = true) : c ≠ '/' := by
  rintro rfl
  revert h
  decide

theorem isRepoFirstChar_isRepoChar (c : Char) (h : isRepoFirstChar c = true) :
    isRepoChar c = true := by
  simp only [isRepoFirstChar, isRepoChar, Bool.or_eq_true] at *
  tauto

theorem isRepoChar_isNameChar (c : Char) (h : isRepoChar c = true) : isNameChar c = true := by
  simp only [isRepoChar, Bool.or_eq_true] at h
  unfold isNameChar
  rcases h with ((((h | h) | h) | h) | h) | h
  · simp [h]
  · simp [h]
  · simp [h]
  all_goals
    obtain rfl : c = _ := by simpa using h
    decide


theorem parseRepo_at_slashes (t : List Char) :
    parseRepo ('@' :: '/' :: '/' :: t) = .ok (false, ['@'], '/' :: '/' :: t) := by
  have hi : stringsIndex ('@' :: '/' :: '/' :: t) ['/', '/'] = 1 := by
    simp [stringsIndex, stringsIndexAux, List.isPrefixOf]
  have hs : splitRepo ('@' :: '/' :: '/' :: t) = (['@'], '/' :: '/' :: t) := by
    simp [splitRepo, hi]
  simp [parseRepo, stringsHasPrefix, hs, labelRepoRegexp]

theorem parseRepo_slashes (t : List Char) :
    parseRepo ('/' :: '/' :: t) = .ok (true, [], '/' :: '/' :: t) := by
  simp [parseRepo, stringsHasPrefix, List.isPrefixOf]

theorem parsePkg_slashes (rel : Bool) (t : List Char) :
    parsePkg rel ('/' :: '/' :: t) = parsePkg false ('/' :: '/' :: t) := by
  simp [parsePkg, stringsHasPrefix, List.isPrefixOf]

theorem parsePkg_slashes_rel (rel : Bool) (t : List Char) (rel1 : Bool) (pkg s2 : List Char)
    (h : parsePkg rel ('/' :: '/' :: t) = .ok (rel1, pkg, s2)) : rel1 = false := by
  have := (parsePkg_rel _ _ _ _ _ h).1
  simpa [stringsHasPrefix, List.isPrefixOf] using this

theorem parseName_repo (rel : Bool) (repo repo1 pkg s : List Char) :
    parseName rel repo1 pkg s = (parseName rel repo pkg s).map (fun l => { l with Repo := repo1 }) := by
  unfold parseName
  split
  · rfl
  · dsimp only
    split
    · rfl
    · split <;> rfl

theorem parseStages_at_slashes (t : List Char) :
    parseStages ('@' :: '/' :: '/' :: t) =
      (parseStages ('/' :: '/' :: t)).map (fun l => { l with Repo := ['@'] }) := by
  unfold parseStages
  rw [parseRepo_at_slashes, parseRepo_slashes]
  dsimp only
  rw [parsePkg_slashes true]
  cases h : parsePkg false ('/' :: '/' :: t) with
  | error e => rfl
  | ok v =>
    obtain ⟨rel1, pkg, s2⟩ := v
    dsimp only
    rw [parseName_repo rel1 []]

theorem parseStages_slashes_fields (t : List Char) (l : Label)
    (h : parseStages ('/' :: '/' :: t) = .ok l) : l.Repo = [] ∧ l.Relative = false := by
  rw [parseStages_ok_iff] at h
  obtain ⟨rel, repo, s1, rel1, pkg, s2, h1, h2, h3⟩ := h
  rw [parseRepo_slashes] at h1
  simp only [Except.ok.injEq, Prod.mk.injEq] at h1
  obtain ⟨rfl, rfl, rfl⟩ := h1
  have := parsePkg_slashes_rel _ _ _ _ _ h2
  have c := parseName_fields _ _ _ _ _ h3
  exact ⟨c.2.1, by rw [c.1, this]⟩

/-- C6. `Parse ("@//" + t)` fails exactly when `Parse ("//" + t)` fails, and
when both succeed the two labels have the same package and name, neither is
relative, and the repository is `"@"` for the first and empty for the
second. -/
theorem Parse_explicit_main_repository (t : List Char) :
    ((Parse ('@' :: '/' :: '/' :: t)).2 ≠ none ↔ (Parse ('/' :: '/' :: t)).2 ≠ none) ∧
    ((Parse ('@' :: '/' :: '/' :: t)).2 = none → (Parse ('/' :: '/' :: t)).2 = none →
      (Parse ('@' :: '/' :: '/' :: t)).1.Pkg = (Parse ('/' :: '/' :: t)).1.Pkg ∧
      (Parse ('@' :: '/' :: '/' :: t)).1.Name = (Parse ('/' :: '/' :: t)).1.Name ∧
      (Parse ('@' :: '/' :: '/' :: t)).1.Relative = false ∧
      (Parse ('/' :: '/' :: t)).1.Relative = false ∧
      (Parse ('@' :: '/' :: '/' :: t)).1.Repo = ['@'] ∧
      (Parse ('/' :: '/' :: t)).1.Repo = []) := by
  have key := parseStages_at_slashes t
  unfold Parse
  cases h : parseStages ('/' :: '/' :: t) with
  | error e =>
    rw [h] at key
    simp [key, Except.map]
  | ok l =>
    rw [h] at key
    have f := parseStages_slashes_fields t l h
    simp [key, Except.map, f.1, f.2]


/-- Witness of C6 at `t = "a:b"`, where both parses succeed. -/
theorem Parse_explicit_main_repository_witness :
    (Parse ['@', '/', '/', 'a', ':', 'b']).2 = none ∧
      (Parse ['/', '/', 'a', ':', 'b']).2 = none ∧
      (Parse ['@', '/', '/', 'a', ':', 'b']).1.Pkg = (Parse ['/', '/', 'a', ':', 'b']).1.Pkg ∧
      (Parse ['@', '/', '/', 'a', ':', 'b']).1.Name = (Parse ['/', '/', 'a', ':', 'b']).1.Name ∧
      (Parse ['@', '/', '/', 'a', ':', 'b']).1.Relative = false ∧
      (Parse ['/', '/', 'a', ':', 'b']).1.Relative = false ∧
      (Parse ['@', '/', '/', 'a', ':', 'b']).1.Repo = ['@'] ∧
      (Parse ['/', '/', 'a', ':', 'b']).1.Repo = [] :=
  ⟨by decide, by decide,
    (Parse_explicit_main_repository ['a', ':', 'b']).2 (by decide) (by decide)⟩

theorem labelRepoRegexp_facts (r : List Char) (h : labelRepoRegexp r = true) :
    r ≠ [] ∧ '/' ∉ r ∧ labelNameRegexp r = true := by
  unfold labelRepoRegexp at h
  rcases (Bool.or_eq_true_iff).1 h with h1 | h1
  · obtain rfl : r = ['@'] := by simpa using h1
    decide
  · cases r with
    | nil => simp at h1
    | cons c rest =>
      simp only [Bool.and_eq_true, List.all_eq_true] at h1
      have hall : ∀ x ∈ c :: rest, isRepoChar x = true := by
        intro x hx
        rcases List.mem_cons.1 hx with rfl | hx
        · exact isRepoFirstChar_isRepoChar _ h1.1
        · exact h1.2 x hx
      refine ⟨by simp, fun hm => isRepoChar_ne_slash _ (hall _ hm) rfl, ?_⟩
      unfold labelNameRegexp
      rw [List.all_eq_true]
      exact fun x hx => isRepoChar_isNameChar _ (hall x hx)

theorem parseRepo_bare (r : List Char) (h : labelRepoRegexp r = true) :
    parseRepo ('@' :: r) = .ok (false, r, '/' :: '/' :: ':' :: r) := by
  obtain ⟨_, hs, _⟩ := labelRepoRegexp_facts r h
  have hi : stringsIndex ('@' :: r) ['/', '/'] = -1 :=
    stringsIndexAux_two_none '/' _ 0 (by simp [hs])
  have hsplit : splitRepo ('@' :: r) = (r, '/' :: '/' :: ':' :: r) := by
    simp [splitRepo, hi]
  simp [parseRepo, stringsHasPrefix, hsplit, h]

theorem parseRepo_qualified (r rest : List Char) (h : labelRepoRegexp r = true) :
    parseRepo ('@' :: (r ++ '/' :: '/' :: rest)) = .ok (false, r, '/' :: '/' :: rest) := by
  obtain ⟨hne, hs, _⟩ := labelRepoRegexp_facts r h
  have hi : stringsIndex ('@' :: (r ++ '/' :: '/' :: rest)) ['/', '/'] = (r.length + 1 : Nat) := by
    have := stringsIndexAux_two_found '/' ('@' :: r) rest 0 (by simp [hs])
    simpa [stringsIndex] using this
  have hlen : 0 < r.length := List.length_pos.2 hne
  have hsplit : splitRepo ('@' :: (r ++ '/' :: '/' :: rest)) = (r, '/' :: '/' :: rest) := by
    unfold splitRepo
    simp only [hi, Int.toNat_ofNat]
    rw [if_pos (by omega)]
    have e : '@' :: (r ++ '/' :: '/' :: rest) = ('@' :: r) ++ '/' :: '/' :: rest := rfl
    have l : ('@' :: r).length = r.length + 1 := rfl
    rw [e, ← l, List.take_left, List.drop_left]
    rfl
  simp [parseRepo, stringsHasPrefix, hsplit, h]

theorem parsePkg_with_name (rel : Bool) (pkg rest : List Char)
    (h : labelPkgRegexp pkg = true) :
    parsePkg rel ('/' :: '/' :: (pkg ++ ':' :: rest)) = .ok (false, pkg, ':' :: rest) := by
  have hc : ':' ∉ pkg := by
    intro hm
    unfold labelPkgRegexp at h
    rw [List.all_eq_true] at h
    exact isPkgChar_ne_colon _ (h _ hm) rfl
  have hi : stringsIndex ('/' :: '/' :: (pkg ++ ':' :: rest)) [':'] = (pkg.length + 2 : Nat) := by
    have := stringsIndexAux_one_found ':' ('/' :: '/' :: pkg) rest 0 (by simp [hc])
    simpa [stringsIndex] using this
  have hsplit : splitPkg ('/' :: '/' :: (pkg ++ ':' :: rest)) = (pkg, ':' :: rest) := by
    unfold splitPkg
    simp only [hi, Int.toNat_ofNat]
    rw [if_neg (by omega)]
    have e : '/' :: '/' :: (pkg ++ ':' :: rest) = ('/' :: '/' :: pkg) ++ ':' :: rest := rfl
    have l : ('/' :: '/' :: pkg).length = pkg.length + 2 := rfl
    rw [e, ← l, List.take_left, List.drop_left]
    rfl
  simp [parsePkg, stringsHasPrefix, hsplit, h]

theorem parsePkg_without_name (rel : Bool) (pkg : List Char)
    (h : labelPkgRegexp pkg = true) :
    parsePkg rel ('/' :: '/' :: pkg) = .ok (false, pkg, []) := by
  have hc : ':' ∉ pkg := by
    intro hm
    unfold labelPkgRegexp at h
    rw [List.all_eq_true] at h
    exact isPkgChar_ne_colon _ (h _ hm) rfl
  have hi : stringsIndex ('/' :: '/' :: pkg) [':'] = -1 :=
    stringsIndexAux_one_none ':' _ 0 (by simp [hc])
  have hsplit : splitPkg ('/' :: '/' :: pkg) = (pkg, []) := by
    simp [splitPkg, hi]
  simp [parsePkg, stringsHasPrefix, hsplit, h]

theorem parseName_explicit (rel : Bool) (repo pkg name : List Char) (hne : name ≠ [])
    (h : labelNameRegexp name = true) :
    parseName rel repo pkg (':' :: name) =
      .ok { Repo := repo, Pkg := pkg, Name := name, Relative := rel } := by
  simp [parseName, stringsTrimPrefix, stringsHasPrefix, hne, h]

theorem parseName_default (rel : Bool) (repo pkg : List Char) (hne : pkg ≠ []) :
    parseName rel repo pkg [] =
      .ok { Repo := repo, Pkg := pkg, Name := pathBase pkg, Relative := rel } := by
  simp [parseName, stringsTrimPrefix, stringsHasPrefix, hne, labelNameRegexp]

/-- C5. For every `r` that matches the repository-name pattern, `Parse ("@" + r)`
succeeds with the non-relative label of repository `r`, empty package and
name `r`, and `Parse ("@" + r + "//:" + r)` returns the same label. -/
theorem Parse_bare_repository (r : List Char) (h : labelRepoRegexp r = true) :
    Parse ('@' :: r) = ({ Repo := r, Pkg := [], Name := r, Relative := false }, none) ∧
    Parse ('@' :: (r ++ '/' :: '/' :: ':' :: r)) =
      ({ Repo := r, Pkg := [], Name := r, Relative := false }, none) := by
  obtain ⟨hne, _, hn⟩ := labelRepoRegexp_facts r h
  have hp := parsePkg_with_name false [] r (by decide)
  simp only [List.nil_append] at hp
  constructor
  · simp only [Parse, parseStages, parseRepo_bare r h, hp, parseName_explicit _ _ _ _ hne hn]
  · simp only [Parse, parseStages, parseRepo_qualified r _ h, hp,
      parseName_explicit _ _ _ _ hne hn]


/-- Witness of C5 at the repository name `"foo"`. -/
theorem Parse_bare_repository_witness :
    labelRepoRegexp ['f', 'o', 'o'] = true ∧
      Parse ('@' :: ['f', 'o', 'o']) =
        ({ Repo := ['f', 'o', 'o'], Pkg := [], Name := ['f', 'o', 'o'], Relative := false },
          none) ∧
      Parse ('@' :: (['f', 'o', 'o'] ++ '/' :: '/' :: ':' :: ['f', 'o', 'o'])) =
        ({ Repo := ['f', 'o', 'o'], Pkg := [], Name := ['f', 'o', 'o'], Relative := false },
          none) :=
  ⟨by decide, Parse_bare_repository ['f', 'o', 'o'] (by decide)⟩

theorem afterLastSlash_of_not_mem (p : List Char) (h : '/' ∉ p) : afterLastSlash p = p := by
  cases p with
  | nil => rfl
  | cons c cs =>
    have h1 : c ≠ '/' := fun e => h (by simp [e])
    have h2 : '/' ∉ cs := fun e => h (by simp [e])
    simp [afterLastSlash, h1, h2]

theorem afterLastSlash_append (xs ys : List Char) (h : '/' ∉ ys) :
    afterLastSlash (xs ++ '/' :: ys) = ys := by
  induction xs with
  | nil => simp [afterLastSlash, h]
  | cons c cs ih => simp [afterLastSlash, ih]

theorem afterLastSlash_ne_nil (p : List Char) (hne : p ≠ []) (hl : p.getLast? ≠ some '/') :
    afterLastSlash p ≠ [] := by
  induction p with
  | nil => exact absurd rfl hne
  | cons c cs ih =>
    unfold afterLastSlash
    split
    · rename_i hc
      have hcs : cs ≠ [] := by rintro rfl; simp at hc
      apply ih hcs
      obtain ⟨d, ds, rfl⟩ := List.exists_cons_of_ne_nil hcs
      rwa [List.getLast?_cons_cons] at hl
    · split
      · rename_i hc
        subst hc
        rintro rfl
        simp at hl
      · simp

theorem stripTrailingSlashes_eq (p : List Char) (hl : p.getLast? ≠ some '/') :
    stripTrailingSlashes p = p := by
  unfold stripTrailingSlashes
  rcases List.eq_nil_or_concat p with rfl | ⟨q, x, rfl⟩
  · rfl
  · have hx : x ≠ '/' := by simpa using hl
    simp [List.dropWhile, hx]

theorem pathBase_eq_afterLastSlash (p : List Char) (hne : p ≠ [])
    (hl : p.getLast? ≠ some '/') : pathBase p = afterLastSlash p := by
  unfold pathBase
  rw [if_neg hne]
  simp only [stripTrailingSlashes_eq p hl]
  rw [if_neg (afterLastSlash_ne_nil p hne hl)]

/-- C4, amended. For a repository name `r` matching the repository pattern and
a non-empty package `p` over the package characters that does not end in a
slash, `Parse ("//" + p)` and `Parse ("@" + r + "//" + p)` succeed with
package `p` and with the text after the last slash of `p` (all of `p` if it
has none) as name. -/
theorem Parse_default_name (r p : List Char) (hr : labelRepoRegexp r = true)
    (hne : p ≠ []) (hp : labelPkgRegexp p = true) (hl : p.getLast? ≠ some '/') :
    Parse ('/' :: '/' :: p) =
      ({ Repo := [], Pkg := p, Name := afterLastSlash p, Relative := false }, none) ∧
    Parse ('@' :: (r ++ '/' :: '/' :: p)) =
      ({ Repo := r, Pkg := p, Name := afterLastSlash p, Relative := false }, none) := by
  have hb := pathBase_eq_afterLastSlash p hne hl
  constructor
  · simp only [Parse, parseStages, parseRepo_slashes, parsePkg_without_name _ p hp,
      parseName_default _ _ _ hne, hb]
  · simp only [Parse, parseStages, parseRepo_qualified r _ hr, parsePkg_without_name _ p hp,
      parseName_default _ _ _ hne, hb]

/-- Witness of C4 at `r = "a"`, `p = "b/c"`. -/
theorem Parse_default_name_witness :
    labelRepoRegexp ['a'] = true ∧ ['b', '/', 'c'] ≠ [] ∧
      labelPkgRegexp ['b', '/', 'c'] = true ∧
      (['b', '/', 'c'] : List Char).getLast? ≠ some '/' ∧
      Parse ('/' :: '/' :: ['b', '/', 'c']) =
        ({ Repo := [], Pkg := ['b', '/', 'c'], Name := afterLastSlash ['b', '/', 'c'],
           Relative := false }, none) ∧
      Parse ('@' :: (['a'] ++ '/' :: '/' :: ['b', '/', 'c'])) =
        ({ Repo := ['a'], Pkg := ['b', '/', 'c'], Name := afterLastSlash ['b', '/', 'c'],
           Relative := false }, none) :=
  ⟨by decide, by decide, by decide, by decide,
    Parse_default_name ['a'] ['b', '/', 'c'] (by decide) (by decide) (by decide) (by decide)⟩

/-- C4 as stated fails: the package `"a/"` is non-empty and over the package
characters, and `Parse "//a/"` gives the name `"a"`, while the text after the
last slash of `"a/"` is empty. -/
theorem Parse_default_name_counterexample :
    ¬ (∀ p : List Char, p ≠ [] → labelPkgRegexp p = true →
        (Parse ('/' :: '/' :: p)).2 = none ∧ (Parse ('/' :: '/' :: p)).1.Pkg = p ∧
          (Parse ('/' :: '/' :: p)).1.Name = afterLastSlash p) := by
  intro h
  have := h ['a', '/'] (by decide) (by decide)
  revert this
  decide

/-- C10, amended. For every label whose package does not end in a slash and
whose name, when the package is empty, is neither empty nor `"."`,
`String` is `":" + Name` if the label is relative and otherwise the
repository part, `"//"`, the package, and `":" + Name` unless the name is the
text after the last slash of the package. -/
theorem String_canonical (l : Label) (hl : l.Pkg.getLast? ≠ some '/')
    (hn : l.Pkg = [] → l.Name ≠ [] ∧ l.Name ≠ ['.']) :
    l.String = canonicalRendering l := by
  unfold Label.String canonicalRendering
  by_cases hrel : l.Relative = true
  · simp [hrel]
  · have hS : (pathBase l.Pkg = l.Name) ↔ (l.Name = afterLastSlash l.Pkg) := by
      by_cases hp : l.Pkg = []
      · have := hn hp
        rw [hp]
        simp only [pathBase, afterLastSlash, if_true]
        constructor
        · intro e; exact absurd e.symm this.2
        · intro e; exact absurd e this.1
      · rw [pathBase_eq_afterLastSlash _ hp hl]
        exact eq_comm
    simp only [hrel, Bool.false_eq_true, if_false]
    by_cases hr1 : l.Repo = []
    · by_cases hs : l.Name = afterLastSlash l.Pkg
      · simp [hr1, hS.2 hs, hs]
      · simp [hr1, hs, mt hS.1 hs]
    · by_cases hr2 : l.Repo = ['@']
      · by_cases hs : l.Name = afterLastSlash l.Pkg
        · simp [hr2, hS.2 hs, hs]
        · simp [hr2, hs, mt hS.1 hs]
      · by_cases hs : l.Name = afterLastSlash l.Pkg
        · simp [hr1, hr2, hS.2 hs, hs]
        · simp [hr1, hr2, hs, mt hS.1 hs]

/-- Witness of C10 at the label of package `"foo/bar"` and name `"bar"`. -/
theorem String_canonical_witness :
    (({ Repo := [], Pkg := "foo/bar".toList, Name := "bar".toList, Relative := false } :
        Label).Pkg.getLast? ≠ some '/') ∧
      Label.String { Repo := [], Pkg := "foo/bar".toList, Name := "bar".toList,
                     Relative := false } =
        canonicalRendering { Repo := [], Pkg := "foo/bar".toList, Name := "bar".toList,
                             Relative := false } :=
  ⟨by decide, String_canonical _ (by decide) (by decide)⟩

/-- C10 as stated fails: for the label of package `"a/"` and name `"a"`,
`String` gives `"//a/"`, while the name differs from the (empty) text after
the last slash of the package. -/
theorem String_canonical_counterexample :
    ¬ (∀ l : Label, l.String = canonicalRendering l) := by
  intro h
  have := h { Repo := [], Pkg := ['a', '/'], Name := ['a'], Relative := false }
  revert this
  decide

/-- C3 at the input `"//:."`: `Parse` succeeds with the label of empty package
and name `"."`, `String` renders that label as `"//"`, and `Parse "//"`
fails with "empty package and name". -/
theorem Parse_String_unstable_at_dot_name :
    Parse ['/', '/', ':', '.'] = ({ Repo := [], Pkg := [], Name := ['.'], Relative := false }, none) ∧
    (Parse ['/', '/', ':', '.']).1.String = ['/', '/'] ∧
    Parse (Parse ['/', '/', ':', '.']).1.String = (NoLabel, some ParseError.emptyPackageAndName) := by
  decide

/-! ## Properties of the one-to-one codec -/

theorem getElem?_at_length (pre : List Char) (x : Char) (t : List Char) :
    (pre ++ x :: t)[pre.length]? = some x := by
  rw [List.getElem?_append_right (le_refl _)]
  simp

theorem getElem?_at_length_succ (pre : List Char) (x y : Char) (t : List Char) :
    (pre ++ x :: y :: t)[pre.length + 1]? = some y := by
  rw [List.getElem?_append_right (by omega)]
  simp

theorem getElem?_at_length_succ_succ (pre : List Char) (x y z : Char) (t : List Char) :
    (pre ++ x :: y :: z :: t)[pre.length + 2]? = some z := by
  rw [List.getElem?_append_right (by omega)]
  simp

theorem toUpper_toLower_of_upper (c : Char) (h : inRange 'A' 'Z' c = true) :
    inRange 'a' 'z' c.toLower = true ∧ c.toLower.toUpper = c ∧
      c.toLower ≠ '.' ∧ c.toLower ≠ '-' := by
  simp only [inRange, Bool.and_eq_true, decide_eq_true_eq] at h
  have h1 : 65 ≤ c.toNat := h.1
  have h2 : c.toNat ≤ 90 := h.2
  have hc : c = Char.ofNat c.toNat := (Char.ofNat_toNat c).symm
  generalize c.toNat = n at h1 h2 hc
  subst hc
  interval_cases n <;> decide


theorem escapeRune_head (d : Char) :
    ∃ h t, escapeRune d = h :: t ∧ (d ≠ '/' → h ≠ '_') := by
  unfold escapeRune
  split
  · exact ⟨_, _, rfl, fun _ => by decide⟩
  · split
    · exact ⟨_, _, rfl, fun _ => by decide⟩
    · split
      · exact ⟨_, _, rfl, fun h => absurd ‹d = '/'› h⟩
      · split
        · exact ⟨_, _, rfl, fun _ => by decide⟩
        · exact ⟨_, _, rfl, fun _ => ‹¬ d = '_'›⟩

theorem decodeLoop_done (r : List Char) (fuel : Nat) (mp : List Char) :
    decodeLoop r (fuel + 1) r.length mp = .ok (decodeFinish mp) := by
  simp [decodeLoop, decodeFinish]

theorem decodeLoop_step_underscore (pre t mp : List Char) (f : Nat) :
    decodeLoop (pre ++ '_' :: t) (f + 1) pre.length mp =
      decodeLoop (pre ++ '_' :: t) f (pre.length + 1) (mp ++ ['/']) := by
  rw [decodeLoop, if_pos (by simp), getElem?_at_length]
  simp

theorem decodeLoop_step_plain (pre t mp : List Char) (f : Nat) (x : Char)
    (h1 : x ≠ '_') (h2 : x ≠ '.') :
    decodeLoop (pre ++ x :: t) (f + 1) pre.length mp =
      decodeLoop (pre ++ x :: t) f (pre.length + 1) (mp ++ [x]) := by
  rw [decodeLoop, if_pos (by simp), getElem?_at_length]
  simp [h1, h2]

theorem decodeLoop_step_dot_last (pre mp : List Char) (f : Nat) :
    decodeLoop (pre ++ ['.']) (f + 1) pre.length mp =
      decodeLoop (pre ++ ['.']) f (pre.length + 1) (mp ++ ['.']) := by
  rw [decodeLoop, if_pos (by simp), getElem?_at_length]
  simp

theorem decodeLoop_step_dot_plain (pre t mp : List Char) (f : Nat) (y : Char)
    (h : y ≠ '_') :
    decodeLoop (pre ++ '.' :: y :: t) (f + 1) pre.length mp =
      decodeLoop (pre ++ '.' :: y :: t) f (pre.length + 1) (mp ++ ['.']) := by
  rw [decodeLoop, if_pos (by simp), getElem?_at_length]
  simp only [getElem?_at_length_succ]
  simp [h]

theorem decodeLoop_step_escape (pre t mp : List Char) (f : Nat) (z : Char) :
    decodeLoop (pre ++ '.' :: '_' :: z :: t) (f + 1) pre.length mp =
      if z = '.' then decodeLoop (pre ++ '.' :: '_' :: z :: t) f (pre.length + 3) (mp ++ ['_'])
      else if z = '-' then
        decodeLoop (pre ++ '.' :: '_' :: z :: t) f (pre.length + 3) (mp ++ ['~'])
      else if inRange 'a' 'z' z then
        decodeLoop (pre ++ '.' :: '_' :: z :: t) f (pre.length + 3) (mp ++ [z.toUpper])
      else .invalidEscape z := by
  rw [decodeLoop, if_pos (by simp), getElem?_at_length]
  simp only [getElem?_at_length_succ, getElem?_at_length_succ_succ]
  simp

theorem decodeLoop_escaped (q : List Char) :
    ∀ (pre mp : List Char) (fuel : Nat), NoDotSlash q → q.length < fuel →
      decodeLoop (pre ++ q.flatMap escapeRune) fuel pre.length mp =
        .ok (decodeFinish (mp ++ q)) := by
  induction q with
  | nil =>
    intro pre mp fuel _ hf
    obtain ⟨f, rfl⟩ : ∃ f, fuel = f + 1 := ⟨fuel - 1, by simp at hf; omega⟩
    simpa using decodeLoop_done pre f mp
  | cons c q ih =>
    intro pre mp fuel hq hf
    obtain ⟨f, rfl⟩ : ∃ f, fuel = f + 1 := ⟨fuel - 1, by simp at hf; omega⟩
    have hf1 : q.length < f := by simp at hf; omega
    have hq1 : NoDotSlash q := List.Chain'.tail hq
    have next : ∀ (e : List Char) (w : List Char),
        decodeLoop (pre ++ (e ++ q.flatMap escapeRune)) f (pre.length + e.length) (mp ++ w) =
          .ok (decodeFinish (mp ++ (w ++ q))) := by
      intro e w
      have := ih (pre ++ e) (mp ++ w) f hq1 hf1
      simpa [List.append_assoc] using this
    rw [List.flatMap_cons]
    by_cases c1 : c = '_'
    · subst c1
      have e : escapeRune '_' = ['.', '_', '.'] := by decide
      rw [e]
      simp only [List.cons_append, List.nil_append]
      rw [decodeLoop_step_escape, if_pos rfl]
      exact next ['.', '_', '.'] ['_']
    by_cases c2 : c = '~'
    · subst c2
      have e : escapeRune '~' = ['.', '_', '-'] := by decide
      rw [e]
      simp only [List.cons_append, List.nil_append]
      rw [decodeLoop_step_escape, if_neg (by decide), if_pos rfl]
      exact next ['.', '_', '-'] ['~']
    by_cases c3 : c = '/'
    · subst c3
      have e : escapeRune '/' = ['_'] := by decide
      rw [e]
      simp only [List.cons_append, List.nil_append]
      rw [decodeLoop_step_underscore]
      exact next ['_'] ['/']
    by_cases c4 : inRange 'A' 'Z' c = true
    · have e : escapeRune c = ['.', '_', c.toLower] := by
        simp [escapeRune, c1, c2, c3, c4]
      obtain ⟨u1, u2, u3, u4⟩ := toUpper_toLower_of_upper c c4
      rw [e]
      simp only [List.cons_append, List.nil_append]
      rw [decodeLoop_step_escape, if_neg u3, if_neg u4, if_pos u1, u2]
      exact next ['.', '_', c.toLower] [c]
    have e : escapeRune c = [c] := by
      simp [escapeRune, c1, c2, c3, c4]
    rw [e]
    simp only [List.cons_append, List.nil_append]
    by_cases c5 : c = '.'
    · subst c5
      cases q with
      | nil =>
        simp only [List.flatMap_nil]
        rw [decodeLoop_step_dot_last]
        simpa using next ['.'] ['.']
      | cons d q2 =>
        have hd : d ≠ '/' := by
          have := List.Chain'.rel_head hq
          simpa using this
        obtain ⟨h, t, eh, hh⟩ := escapeRune_head d
        have hstep := decodeLoop_step_dot_plain pre (t ++ q2.flatMap escapeRune) mp f h (hh hd)
        rw [List.flatMap_cons, eh]
        simp only [List.cons_append] at hstep ⊢
        rw [hstep]
        have := next ['.'] ['.']
        rw [List.flatMap_cons, eh] at this
        simpa using this
    · rw [decodeLoop_step_plain _ _ _ _ _ c1 c5]
      exact next [c] [c]

theorem splitSlash_ne_nil (p : List Char) : splitSlash p ≠ [] := by
  cases p with
  | nil => simp [splitSlash]
  | cons c cs =>
    unfold splitSlash
    split
    · simp
    · split <;> simp

theorem splitSlash_of_not_mem (p : List Char) (h : '/' ∉ p) : splitSlash p = [p] := by
  induction p with
  | nil => rfl
  | cons c cs ih =>
    have h1 : c ≠ '/' := fun e => h (by simp [e])
    have h2 : '/' ∉ cs := fun e => h (by simp [e])
    simp [splitSlash, h1, ih h2]

theorem splitSlash_append (xs ys : List Char) :
    splitSlash (xs ++ '/' :: ys) = splitSlash xs ++ splitSlash ys := by
  induction xs with
  | nil => simp [splitSlash]
  | cons c cs ih =>
    by_cases hc : c = '/'
    · simp [splitSlash, hc, ih]
    · obtain ⟨e, es, he⟩ := List.exists_cons_of_ne_nil (splitSlash_ne_nil cs)
      simp [splitSlash, hc, ih, he]

theorem exists_last_slash (p : List Char) (h : '/' ∈ p) :
    ∃ xs ys, p = xs ++ '/' :: ys ∧ '/' ∉ ys := by
  induction p with
  | nil => simp at h
  | cons c cs ih =>
    by_cases hcs : '/' ∈ cs
    · obtain ⟨xs, ys, e, hy⟩ := ih hcs
      exact ⟨c :: xs, ys, by simp [e], hy⟩
    · have hc : c = '/' := by
        rcases List.mem_cons.1 h with e | e
        · exact e.symm
        · exact absurd e hcs
      exact ⟨[], cs, by simp [hc], hcs⟩

theorem headD_splitSlash_append (p : List Char) :
    ∃ tail, p = (splitSlash p).headD [] ++ tail := by
  induction p with
  | nil => exact ⟨[], rfl⟩
  | cons c cs ih =>
    by_cases hc : c = '/'
    · exact ⟨c :: cs, by simp [splitSlash, hc]⟩
    · obtain ⟨e, es, he⟩ := List.exists_cons_of_ne_nil (splitSlash_ne_nil cs)
      obtain ⟨tail, ht⟩ := ih
      rw [he] at ht
      refine ⟨tail, ?_⟩
      simp only [splitSlash, hc, he, if_false, List.headD_cons, List.cons_append]
      simpa using ht

theorem headD_splitSlash_mem (p : List Char) : (splitSlash p).headD [] ∈ splitSlash p := by
  obtain ⟨e, es, he⟩ := List.exists_cons_of_ne_nil (splitSlash_ne_nil p)
  simp [he]

theorem noDotSlash_of_elements (p : List Char)
    (h : ∀ e ∈ splitSlash p, e.getLast? ≠ some '.') : NoDotSlash p := by
  induction p with
  | nil => exact List.chain'_nil
  | cons c cs ih =>
    unfold NoDotSlash
    rw [List.chain'_cons']
    by_cases hc : c = '/'
    · subst hc
      refine ⟨fun y _ hy => by simp at hy, ih ?_⟩
      intro e he
      exact h e (by simp [splitSlash, he])
    · obtain ⟨e, es, he⟩ := List.exists_cons_of_ne_nil (splitSlash_ne_nil cs)
      have hs : splitSlash (c :: cs) = (c :: e) :: es := by simp [splitSlash, hc, he]
      rw [hs] at h
      constructor
      · intro y hy hcy
        obtain ⟨rfl, rfl⟩ := hcy
        cases cs with
        | nil => simp at hy
        | cons d ds =>
          simp only [List.head?_cons, Option.mem_def, Option.some.injEq] at hy
          subst hy
          simp only [splitSlash, if_true, List.cons.injEq] at he
          have := h ['.'] (by simp [← he.1])
          simp at this
      · apply ih
        intro e1 he1
        rw [he] at he1
        rcases List.mem_cons.1 he1 with rfl | he1
        · have := h (c :: e1) (by simp)
          cases e1 with
          | nil => simp
          | cons x xs => simpa [List.getLast?_cons_cons] using this
        · exact h e1 (by simp [he1])

theorem validModulePathShape_iff (p : List Char) :
    validModulePathShape p = true ↔
      p ≠ [] ∧ (∀ x ∈ p, isModulePathChar x = true) ∧
        (∀ e ∈ splitSlash p, validPathElement e = true) ∧
        validLeadingElement ((splitSlash p).headD []) = true := by
  simp [validModulePathShape, and_assoc]

theorem validPathElement_iff (e : List Char) :
    validPathElement e = true ↔ e ≠ [] ∧ e.head? ≠ some '.' ∧ e.getLast? ≠ some '.' := by
  simp [validPathElement, and_assoc]

theorem validShape_noDotSlash (p : List Char) (h : validModulePathShape p = true) :
    NoDotSlash p := by
  rw [validModulePathShape_iff] at h
  exact noDotSlash_of_elements p fun e he => ((validPathElement_iff e).1 (h.2.2.1 e he)).2.2

theorem validShape_leading (p : List Char) (h : validModulePathShape p = true) :
    ∃ c d rest, p = c :: d :: rest ∧
      (inRange 'a' 'z' c = true ∨ inRange '0' '9' c = true) ∧ d ≠ '~' := by
  rw [validModulePathShape_iff] at h
  obtain ⟨_, _, hel, hlead⟩ := h
  have hv := (validPathElement_iff _).1 (hel _ (headD_splitSlash_mem p))
  obtain ⟨tail, ht⟩ := headD_splitSlash_append p
  generalize (splitSlash p).headD [] = fe at hv hlead ht
  simp only [validLeadingElement, Bool.and_eq_true, List.all_eq_true, bne_iff_ne, ne_eq,
    List.contains_iff_exists_mem_beq, beq_iff_eq] at hlead
  obtain ⟨⟨hall, hdash⟩, hdot⟩ := hlead
  cases fe with
  | nil => exact absurd rfl hv.1
  | cons c fe1 =>
    have hc1 : c ≠ '.' := by simpa using hv.2.1
    have hc2 : c ≠ '-' := by simpa using hdash
    have hc3 := hall c (by simp)
    cases fe1 with
    | nil =>
      obtain ⟨x, hx, rfl⟩ := hdot
      simp at hx
      exact absurd hx.symm hc1
    | cons d fe2 =>
      have hd := hall d (by simp)
      refine ⟨c, d, fe2 ++ tail, by simpa using ht, ?_, ?_⟩
      · simp only [isLeadingElementChar, Bool.or_eq_true, beq_iff_eq] at hc3
        rcases hc3 with ((h1 | h1) | h1) | h1
        · exact Or.inl h1
        · exact Or.inr h1
        · exact absurd h1 hc1
        · exact absurd h1 hc2
      · rintro rfl
        revert hd
        decide

theorem validShape_last (p : List Char) (h : validModulePathShape p = true) :
    ∃ l, p.getLast? = some l ∧ l ≠ '.' ∧ l ≠ '/' := by
  rw [validModulePathShape_iff] at h
  obtain ⟨hne, _, hel, _⟩ := h
  have key : ∀ bs : List Char, bs ∈ splitSlash p → '/' ∉ bs →
      ∃ l, bs.getLast? = some l ∧ l ≠ '.' ∧ l ≠ '/' := by
    intro bs hb hs
    have hv := (validPathElement_iff _).1 (hel _ hb)
    obtain ⟨l, hl⟩ : ∃ l, bs.getLast? = some l := by
      cases hg : bs.getLast? with
      | none => exact absurd (List.getLast?_eq_none_iff.1 hg) hv.1
      | some l => exact ⟨l, rfl⟩
    refine ⟨l, hl, ?_, ?_⟩
    · rintro rfl
      exact hv.2.2 hl
    · rintro rfl
      exact hs (List.mem_of_getLast?_eq_some hl)
  by_cases hs : '/' ∈ p
  · obtain ⟨xs, ys, e, hy⟩ := exists_last_slash p hs
    have hmem : ys ∈ splitSlash p := by
      rw [e, splitSlash_append, splitSlash_of_not_mem ys hy]
      simp
    obtain ⟨l, hl, h1, h2⟩ := key ys hmem hy
    refine ⟨l, ?_, h1, h2⟩
    have hyne : ys ≠ [] := by rintro rfl; simp at hl
    rw [e]
    have e2 : xs ++ '/' :: ys = (xs ++ ['/']) ++ ys := by simp
    rw [e2, List.getLast?_append_of_ne_nil _ hyne, hl]
  · have hmem : p ∈ splitSlash p := by
      rw [splitSlash_of_not_mem p hs]
      simp
    exact key p hmem hs

theorem valid_not_con (p : List Char) (h : validModulePath p = true) :
    ¬ ['/', 'c', 'o', 'n'] <:+ p := by
  rintro ⟨xs, rfl⟩
  simp only [validModulePath, Bool.and_eq_true, List.all_eq_true, Bool.not_eq_true'] at h
  have hmem : ['c', 'o', 'n'] ∈ splitSlash (xs ++ ['/', 'c', 'o', 'n']) := by
    rw [splitSlash_append]
    have : splitSlash ['c', 'o', 'n'] = [['c', 'o', 'n']] := by decide
    simp [this]
  have := h.2 _ hmem
  revert this
  decide

theorem replaceEscapedLeading_escaped (c : Char) (tail : List Char) (h : c ≠ Char.ofNat 10) :
    replaceEscapedLeading ('a' :: '~' :: c :: '.' :: 'a' :: tail) = c :: tail := by
  simp [replaceEscapedLeading, h]

theorem replaceEscapedLeading_plain (c d : Char) (tail : List Char) (h : d ≠ '~') :
    replaceEscapedLeading (c :: d :: tail) = c :: d :: tail := by
  unfold replaceEscapedLeading
  split
  · rename_i c0 c1 x c3 c4 rest heq
    simp only [List.cons.injEq] at heq
    rw [if_neg]
    rintro ⟨_, h1, _⟩
    exact h (heq.2.1 ▸ h1)
  · rfl

theorem stringsTrimSuffix_append (p suf : List Char) : stringsTrimSuffix (p ++ suf) suf = p := by
  have : stringsHasSuffix (p ++ suf) suf = true := by
    simp [stringsHasSuffix]
  simp [stringsTrimSuffix, this]

theorem stringsTrimSuffix_of_not_suffix (p suf : List Char) (h : ¬ suf <:+ p) :
    stringsTrimSuffix p suf = p := by
  have : stringsHasSuffix p suf = false := by
    unfold stringsHasSuffix
    rw [Bool.eq_false_iff]
    exact fun hh => h (List.isSuffixOf_iff_suffix.1 hh)
  simp [stringsTrimSuffix, this]

theorem digit_ne_newline (c : Char) (h : inRange '0' '9' c = true) : c ≠ Char.ofNat 10 := by
  rintro rfl
  revert h
  decide

theorem lower_not_leading_escape (c : Char) (h : inRange 'a' 'z' c = true) :
    (unicodeIsDigit c || unicodeIsUpper c || decide (c = '_') || decide (c = '.')) = false := by
  simp only [inRange, Bool.and_eq_true, decide_eq_true_eq] at h
  have h1 : 97 ≤ c.toNat := h.1
  have h2 : c.toNat ≤ 122 := h.2
  have hc : c = Char.ofNat c.toNat := (Char.ofNat_toNat c).symm
  generalize c.toNat = n at h1 h2 hc
  subst hc
  interval_cases n <;> decide

theorem escapeLeading_facts (c d : Char) (rest : List Char)
    (hc : inRange 'a' 'z' c = true ∨ inRange '0' '9' c = true) (hd : d ≠ '~')
    (hchain : NoDotSlash (c :: d :: rest))
    (hall : ∀ x ∈ c :: d :: rest, isModulePathChar x = true) :
    (escapeLeading c (d :: rest)).getLast? = (c :: d :: rest).getLast? ∧
      NoDotSlash (escapeLeading c (d :: rest)) ∧
      (∀ tail, replaceEscapedLeading (escapeLeading c (d :: rest) ++ tail) =
        (c :: d :: rest) ++ tail) ∧
      (∃ h t, escapeLeading c (d :: rest) = h :: t ∧ inRange 'a' 'z' h = true ∧ t ≠ []) ∧
      (∀ x ∈ escapeLeading c (d :: rest), isModulePathChar x = true) := by
  rcases hc with hc | hc
  · have e : escapeLeading c (d :: rest) = c :: d :: rest := by
      unfold escapeLeading
      rw [lower_not_leading_escape c hc]
      rfl
    rw [e]
    exact ⟨rfl, hchain, fun tail => replaceEscapedLeading_plain c d _ hd,
      ⟨c, d :: rest, rfl, hc, by simp⟩, hall⟩
  · have e : escapeLeading c (d :: rest) = 'a' :: '~' :: c :: '.' :: 'a' :: d :: rest := by
      unfold escapeLeading
      have : unicodeIsDigit c = true := hc
      simp [this]
    rw [e]
    refine ⟨by simp [List.getLast?_cons_cons], ?_,
      fun tail => replaceEscapedLeading_escaped c _ (digit_ne_newline c hc),
      ⟨'a', _, rfl, by decide, by simp⟩, ?_⟩
    · have ht : NoDotSlash (d :: rest) := List.Chain'.tail hchain
      unfold NoDotSlash at ht ⊢
      simp only [List.chain'_cons]
      refine ⟨by decide, by simp, by simp, by decide, by simp, ht⟩
    · intro x hx
      simp only [List.mem_cons] at hx
      rcases hx with rfl | rfl | rfl | rfl | rfl | hx
      · decide
      · decide
      · exact hall _ (by simp)
      · decide
      · decide
      · exact hall x (by simp only [List.mem_cons]; tauto)

/-- What `ModulePathToBazelRepoNameOneToOne` does on a path of valid shape:
it escapes, rune by rune, a prepared path `q` with the properties that the
round trip and the validity of the encoded name rest on. -/
theorem encode_prepared (p : List Char) (h : validModulePathShape p = true) :
    ∃ q, ModulePathToBazelRepoNameOneToOne p = some (q.flatMap escapeRune) ∧
      NoDotSlash q ∧
      (¬ ['/', 'c', 'o', 'n'] <:+ p → decodeFinish q = p) ∧
      (∃ h t, q = h :: t ∧ inRange 'a' 'z' h = true ∧ t ≠ []) ∧
      (∃ l, q.getLast? = some l ∧ (unicodeIsDigit l = true ∨ unicodeIsLetter l = true)) ∧
      (∀ x ∈ q, isModulePathChar x = true) := by
  obtain ⟨c, d, rest, rfl, hc, hd⟩ := validShape_leading p h
  obtain ⟨l, hl, hl1, hl2⟩ := validShape_last _ h
  have hall := ((validModulePathShape_iff _).1 h).2.1
  obtain ⟨f1, f2, f3, f4, f5⟩ :=
    escapeLeading_facts c d rest hc hd (validShape_noDotSlash _ h) hall
  rw [hl] at f1
  by_cases hpad : (!unicodeIsDigit l && !unicodeIsLetter l) = true
  · refine ⟨escapeLeading c (d :: rest) ++ ['/', 'c', 'o', 'n'], ?_, ?_, ?_, ?_, ?_, ?_⟩
    · simp [ModulePathToBazelRepoNameOneToOne, padTrailing, f1, hpad]
    · unfold NoDotSlash at f2 ⊢
      refine List.Chain'.append f2 (by simp [List.chain'_cons]) ?_
      intro x hx y hy
      rw [f1] at hx
      simp only [Option.mem_def, Option.some.injEq] at hx
      subst hx
      exact fun hh => hl1 hh.1
    · intro _
      unfold decodeFinish
      rw [f3, stringsTrimSuffix_append]
    · obtain ⟨h0, t, e, hh, ht⟩ := f4
      exact ⟨h0, t ++ ['/', 'c', 'o', 'n'], by simp [e], hh, by simp⟩
    · exact ⟨'n', by simp [List.getLast?_append], Or.inr (by decide)⟩
    · intro x hx
      rcases List.mem_append.1 hx with hx | hx
      · exact f5 x hx
      · simp only [List.mem_cons, List.mem_singleton] at hx
        rcases hx with rfl | rfl | rfl | rfl | hx
        · decide
        · decide
        · decide
        · decide
        · simp at hx
  · refine ⟨escapeLeading c (d :: rest), ?_, f2, ?_, f4, ?_, f5⟩
    · simp [ModulePathToBazelRepoNameOneToOne, padTrailing, f1, hpad]
    · intro hcon
      unfold decodeFinish
      have := f3 []
      simp only [List.append_nil] at this
      rw [this, stringsTrimSuffix_of_not_suffix _ _ hcon]
    · refine ⟨l, f1, ?_⟩
      simp only [Bool.and_eq_true, Bool.not_eq_true', not_and, Bool.not_eq_false] at hpad
      by_cases hdgt : unicodeIsDigit l = true
      · exact Or.inl hdgt
      · exact Or.inr (hpad (by simpa using hdgt))

theorem length_le_flatMap_escapeRune (q : List Char) :
    q.length ≤ (q.flatMap escapeRune).length := by
  induction q with
  | nil => simp
  | cons c q ih =>
    obtain ⟨h, t, e, _⟩ := escapeRune_head c
    simp only [List.flatMap_cons, List.length_append, List.length_cons, e]
    omega

/-- C1. For every valid Go module path `p`, the encoder returns a repository
name and the decoder, applied to that name, returns exactly `p` and no
error. -/
theorem decode_encode_roundtrip (p : List Char) (h : validModulePath p = true) :
    ∃ r, ModulePathToBazelRepoNameOneToOne p = some r ∧
      BazelRepoNameToModulePathOneToOne r = .ok p := by
  have hshape : validModulePathShape p = true := by
    simp only [validModulePath, Bool.and_eq_true] at h
    exact h.1
  obtain ⟨q, henc, hchain, hfin, _⟩ := encode_prepared p hshape
  refine ⟨_, henc, ?_⟩
  unfold BazelRepoNameToModulePathOneToOne
  have := decodeLoop_escaped q [] [] ((q.flatMap escapeRune).length + 1) hchain
    (by have := length_le_flatMap_escapeRune q; omega)
  simp only [List.nil_append, List.length_nil] at this
  rw [this, hfin (valid_not_con p h)]

theorem escapeRune_lower (c : Char) (h : inRange 'a' 'z' c = true) : escapeRune c = [c] := by
  simp only [inRange, Bool.and_eq_true, decide_eq_true_eq] at h
  have h1 : 97 ≤ c.toNat := h.1
  have h2 : c.toNat ≤ 122 := h.2
  have hc : c = Char.ofNat c.toNat := (Char.ofNat_toNat c).symm
  generalize c.toNat = n at h1 h2 hc
  subst hc
  interval_cases n <;> decide

theorem escapeRune_chars (c : Char) (h : isModulePathChar c = true) :
    ∀ y ∈ escapeRune c, isBazelRepoNameChar y = true := by
  unfold escapeRune
  split
  · decide
  · split
    · decide
    · split
      · decide
      · split
        · rename_i hu
          intro y hy
          simp only [List.mem_cons, List.mem_singleton, List.not_mem_nil, or_false] at hy
          rcases hy with rfl | rfl | rfl
          · decide
          · decide
          · simp [isBazelRepoNameChar, (toUpper_toLower_of_upper c hu).1]
        · rename_i h1 h2 h3 h4
          intro y hy
          simp only [List.mem_singleton] at hy
          subst hy
          simp only [isModulePathChar, Bool.or_eq_true, beq_iff_eq] at h
          simp only [isBazelRepoNameChar, Bool.or_eq_true, beq_iff_eq]
          tauto

theorem escapeRune_last (l : Char) (h : unicodeIsDigit l = true ∨ unicodeIsLetter l = true) :
    ∃ l1, (escapeRune l).getLast? = some l1 ∧
      (inRange 'a' 'z' l1 = true ∨ inRange '0' '9' l1 = true) := by
  by_cases hu : inRange 'A' 'Z' l = true
  · have h1 : l ≠ '_' := by rintro rfl; revert hu; decide
    have h2 : l ≠ '~' := by rintro rfl; revert hu; decide
    have h3 : l ≠ '/' := by rintro rfl; revert hu; decide
    refine ⟨l.toLower, ?_, Or.inl (toUpper_toLower_of_upper l hu).1⟩
    simp [escapeRune, h1, h2, h3, hu]
  · have hd : inRange 'a' 'z' l = true ∨ inRange '0' '9' l = true := by
      rcases h with h | h
      · exact Or.inr h
      · simp only [unicodeIsLetter, Bool.or_eq_true] at h
        rcases h with h | h
        · exact absurd h hu
        · exact Or.inl h
    have h1 : l ≠ '_' := by rintro rfl; revert hd; decide
    have h2 : l ≠ '~' := by rintro rfl; revert hd; decide
    have h3 : l ≠ '/' := by rintro rfl; revert hd; decide
    refine ⟨l, ?_, hd⟩
    simp [escapeRune, h1, h2, h3, hu]

theorem bazelRepoNamePattern_of (c l : Char) (rest : List Char)
    (hc : inRange 'a' 'z' c = true) (hl : rest.getLast? = some l)
    (hl1 : inRange 'a' 'z' l = true ∨ inRange '0' '9' l = true)
    (hall : ∀ x ∈ rest, isBazelRepoNameChar x = true) :
    bazelRepoNamePattern (c :: rest) = true := by
  unfold bazelRepoNamePattern
  simp only [hc, hl, Bool.true_and, Bool.and_eq_true, Bool.or_eq_true, List.all_eq_true]
  exact ⟨hl1, fun x hx => hall x (List.dropLast_subset rest hx)⟩

/-- Witness of C1 at the module path `gopkg.in/yaml.v3`. -/
theorem decode_encode_roundtrip_witness :
    validModulePath "gopkg.in/yaml.v3".toList = true ∧
      ∃ r, ModulePathToBazelRepoNameOneToOne "gopkg.in/yaml.v3".toList = some r ∧
        BazelRepoNameToModulePathOneToOne r = .ok "gopkg.in/yaml.v3".toList :=
  ⟨by decide, decode_encode_roundtrip "gopkg.in/yaml.v3".toList (by decide)⟩

/-- C2. For every module path `p` of valid shape, the encoded name matches
`^[a-z][a-z0-9_.-]*[a-z0-9]$`: it has at least two characters, starts with a
lower-case letter, ends with a lower-case letter or a digit, and all its
characters are lower-case letters, digits, `_`, `.` or `-`. -/
theorem encoded_name_valid (p : List Char) (h : validModulePathShape p = true) :
    ∃ r, ModulePathToBazelRepoNameOneToOne p = some r ∧
      bazelRepoNamePattern r = true ∧ 2 ≤ r.length ∧
      (∃ c, r.head? = some c ∧ inRange 'a' 'z' c = true) ∧
      (∃ l, r.getLast? = some l ∧ (inRange 'a' 'z' l = true ∨ inRange '0' '9' l = true)) ∧
      (∀ x ∈ r, isBazelRepoNameChar x = true) := by
  obtain ⟨q, henc, _, _, ⟨c, t, rfl, hc, ht⟩, ⟨l, hl, hl1⟩, hall⟩ := encode_prepared p h
  refine ⟨_, henc, ?_⟩
  have hE : (c :: t).flatMap escapeRune = c :: t.flatMap escapeRune := by
    simp [List.flatMap_cons, escapeRune_lower c hc]
  obtain ⟨t0, x, rfl⟩ : ∃ t0 x, t = t0 ++ [x] := by
    rcases List.eq_nil_or_concat t with e | ⟨t0, x, e⟩
    · exact absurd e ht
    · exact ⟨t0, x, by simpa using e⟩
  have hx : x = l := by
    have e : c :: (t0 ++ [x]) = (c :: t0) ++ [x] := rfl
    rw [e, List.getLast?_concat] at hl
    exact Option.some.inj hl
  subst hx
  obtain ⟨l1, hl2, hl3⟩ := escapeRune_last x hl1
  have hlast : ((t0 ++ [x]).flatMap escapeRune).getLast? = some l1 := by
    have hne : escapeRune x ≠ [] := by rintro e; simp [e] at hl2
    rw [List.flatMap_append, List.flatMap_singleton, List.getLast?_append_of_ne_nil _ hne, hl2]
  have hchars : ∀ y ∈ (c :: (t0 ++ [x])).flatMap escapeRune, isBazelRepoNameChar y = true := by
    intro y hy
    obtain ⟨a, ha, hya⟩ := List.mem_flatMap.1 hy
    exact escapeRune_chars a (hall a ha) y hya
  have hrest : ∀ y ∈ (t0 ++ [x]).flatMap escapeRune, isBazelRepoNameChar y = true := by
    intro y hy
    apply hchars
    rw [hE]
    exact List.mem_cons_of_mem _ hy
  have hne : (t0 ++ [x]).flatMap escapeRune ≠ [] := by rintro e; simp [e] at hlast
  refine ⟨?_, ?_, ?_, ?_, hchars⟩
  · rw [hE]
    exact bazelRepoNamePattern_of c l1 _ hc hlast hl3 hrest
  · rw [hE]
    have := List.length_pos.2 hne
    simp only [List.length_cons]
    omega
  · rw [hE]
    exact ⟨c, rfl, hc⟩
  · rw [hE]
    obtain ⟨y, ys, e⟩ := List.exists_cons_of_ne_nil hne
    rw [e, List.getLast?_cons_cons, ← e]
    exact ⟨l1, hlast, hl3⟩

/-- Witness of C2 at the module path
`git.sr.ht/~urandom/errors`, which needs an escape. -/
theorem encoded_name_valid_witness :
    validModulePathShape "git.sr.ht/~urandom/errors".toList = true ∧
      ∃ r, ModulePathToBazelRepoNameOneToOne "git.sr.ht/~urandom/errors".toList = some r ∧
        bazelRepoNamePattern r = true ∧ 2 ≤ r.length ∧
        (∃ c, r.head? = some c ∧ inRange 'a' 'z' c = true) ∧
        (∃ l, r.getLast? = some l ∧
          (inRange 'a' 'z' l = true ∨ inRange '0' '9' l = true)) ∧
        (∀ x ∈ r, isBazelRepoNameChar x = true) :=
  ⟨by decide, encoded_name_valid "git.sr.ht/~urandom/errors".toList (by decide)⟩

/-! ## Properties of `Abs`, `Rel` and `Contains` -/

/-- C11. `Abs` leaves a non-relative label unchanged, so that the result is
`Equal` to it, and turns a relative label into the non-relative label of
the given repository and package with the same name. -/
theorem Abs_spec (l : Label) (r p : List Char) :
    (l.Relative = false → l.Abs r p = l ∧ (l.Abs r p).Equal l = true) ∧
    (l.Relative = true →
      l.Abs r p = { Repo := r, Pkg := p, Name := l.Name, Relative := false }) := by
  constructor
  · intro h
    have e : l.Abs r p = l := by simp [Label.Abs, h]
    rw [e]
    exact ⟨rfl, by simp [Label.Equal]⟩
  · intro h
    simp [Label.Abs, h]

/-- Witness of C11 at the absolute label `@x//a:b` and the relative label
`:b`. -/
theorem Abs_spec_witness :
    (Label.Abs { Repo := ['x'], Pkg := ['a'], Name := ['b'], Relative := false } ['r'] ['p'] =
        { Repo := ['x'], Pkg := ['a'], Name := ['b'], Relative := false } ∧
      (Label.Abs { Repo := ['x'], Pkg := ['a'], Name := ['b'], Relative := false }
        ['r'] ['p']).Equal
        { Repo := ['x'], Pkg := ['a'], Name := ['b'], Relative := false } = true) ∧
    Label.Abs { Repo := [], Pkg := [], Name := ['b'], Relative := true } ['r'] ['p'] =
      { Repo := ['r'], Pkg := ['p'], Name := ['b'], Relative := false } :=
  ⟨(Abs_spec { Repo := ['x'], Pkg := ['a'], Name := ['b'], Relative := false }
      ['r'] ['p']).1 rfl,
    (Abs_spec { Repo := [], Pkg := [], Name := ['b'], Relative := true } ['r'] ['p']).2 rfl⟩

/-- C12. `Rel` returns a relative label, or one of another repository,
unchanged; otherwise it returns the relative label of the same name when the
package is the given one, and else the non-relative label with empty
repository and the same package and name. -/
theorem Rel_spec (l : Label) (r p : List Char) :
    ((l.Relative = true ∨ l.Repo ≠ r) → l.Rel r p = l) ∧
    (l.Relative = false → l.Repo = r → l.Pkg = p →
      l.Rel r p = { Repo := [], Pkg := [], Name := l.Name, Relative := true }) ∧
    (l.Relative = false → l.Repo = r → l.Pkg ≠ p →
      l.Rel r p = { Repo := [], Pkg := l.Pkg, Name := l.Name, Relative := false }) := by
  refine ⟨?_, ?_, ?_⟩
  · intro h
    simp [Label.Rel, h]
  · intro h1 h2 h3
    simp [Label.Rel, h1, h2, h3]
  · intro h1 h2 h3
    simp [Label.Rel, h1, h2, h3]

/-- Witness of C12 at the label `@r//a:b`, made relative to `@r//a` and to
`@r//c`, and left unchanged relative to `@q//a`. -/
theorem Rel_spec_witness :
    Label.Rel { Repo := ['r'], Pkg := ['a'], Name := ['b'], Relative := false } ['q'] ['a'] =
      { Repo := ['r'], Pkg := ['a'], Name := ['b'], Relative := false } ∧
    Label.Rel { Repo := ['r'], Pkg := ['a'], Name := ['b'], Relative := false } ['r'] ['a'] =
      { Repo := [], Pkg := [], Name := ['b'], Relative := true } ∧
    Label.Rel { Repo := ['r'], Pkg := ['a'], Name := ['b'], Relative := false } ['r'] ['c'] =
      { Repo := [], Pkg := ['a'], Name := ['b'], Relative := false } :=
  ⟨(Rel_spec { Repo := ['r'], Pkg := ['a'], Name := ['b'], Relative := false }
      ['q'] ['a']).1 (Or.inr (by decide)),
    (Rel_spec { Repo := ['r'], Pkg := ['a'], Name := ['b'], Relative := false }
      ['r'] ['a']).2.1 rfl rfl rfl,
    (Rel_spec { Repo := ['r'], Pkg := ['a'], Name := ['b'], Relative := false }
      ['r'] ['c']).2.2 rfl rfl (by decide)⟩

/-- C14. `Contains` panics exactly when one of the two labels is relative,
and returns a boolean exactly when neither is. -/
theorem Contains_panics_iff (l other : Label) :
    ((∃ e, l.Contains other = .error e) ↔ (l.Relative = true ∨ other.Relative = true)) ∧
    ((∃ b, l.Contains other = .ok b) ↔ (l.Relative = false ∧ other.Relative = false)) := by
  unfold Label.Contains
  cases hl : l.Relative <;> cases ho : other.Relative <;> simp

theorem stringsJoin_splitSlash (p : List Char) : stringsJoin ['/'] (splitSlash p) = p := by
  induction p with
  | nil => rfl
  | cons c cs ih =>
    obtain ⟨e, es, he⟩ := List.exists_cons_of_ne_nil (splitSlash_ne_nil cs)
    rw [he] at ih
    by_cases hc : c = '/'
    · subst hc
      simp only [splitSlash, if_true, he, stringsJoin, List.nil_append, List.singleton_append, ih]
    · simp only [splitSlash, hc, if_false, he]
      cases es with
      | nil =>
        simp only [stringsJoin] at ih ⊢
        rw [ih]
      | cons e1 es1 =>
        simp only [stringsJoin] at ih ⊢
        rw [← ih]
        simp

theorem stringsJoin_append (xs ys : List (List Char)) (hx : xs ≠ []) (hy : ys ≠ []) :
    stringsJoin ['/'] (xs ++ ys) = stringsJoin ['/'] xs ++ '/' :: stringsJoin ['/'] ys := by
  induction xs with
  | nil => exact absurd rfl hx
  | cons x xs ih =>
    cases xs with
    | nil =>
      obtain ⟨y, ys1, rfl⟩ := List.exists_cons_of_ne_nil hy
      simp [stringsJoin]
    | cons x1 xs1 =>
      have := ih (by simp)
      simp only [List.cons_append, stringsJoin, List.append_eq] at this ⊢
      rw [this]
      simp

theorem pathtoolsHasPrefix_iff_components (p pre : List Char) :
    pathtoolsHasPrefix p pre = true ↔ pathComponents pre <+: pathComponents p := by
  unfold pathtoolsHasPrefix pathComponents
  by_cases hpre : pre = []
  · simp [hpre]
  · simp only [hpre, if_false, Bool.or_eq_true, beq_iff_eq, false_or, stringsHasPrefix,
      List.isPrefixOf_iff_prefix]
    constructor
    · rintro (h | ⟨rest, h⟩)
      · subst h
        simp [hpre]
      · have hp : p ≠ [] := by rintro rfl; simp at h
        rw [if_neg hp, ← h]
        have e : pre ++ ['/'] ++ rest = pre ++ '/' :: rest := by simp
        rw [e, splitSlash_append]
        exact List.prefix_append _ _
    · intro h
      by_cases hp : p = []
      · rw [if_pos hp] at h
        exact absurd (List.prefix_nil.1 h) (splitSlash_ne_nil pre)
      · rw [if_neg hp] at h
        obtain ⟨more, hm⟩ := h
        have hj := stringsJoin_splitSlash p
        rw [← hm] at hj
        by_cases hmore : more = []
        · left
          rw [hmore, List.append_nil, stringsJoin_splitSlash] at hj
          exact hj.symm
        · right
          rw [stringsJoin_append _ _ (splitSlash_ne_nil pre) hmore, stringsJoin_splitSlash] at hj
          exact ⟨stringsJoin ['/'] more, by rw [← hj]; simp⟩

/-- C13. For non-relative labels, `Contains` returns `true` exactly when the
repositories are equal and the package of `other` is the package of `l` or a
sub-path of it, component by component; so every non-relative label contains
itself, the package `foo` contains `foo/bar`, and it does not contain
`foobar`. -/
theorem Contains_by_path_components (l other : Label) (hl : l.Relative = false)
    (ho : other.Relative = false) :
    (∃ b, l.Contains other = .ok b ∧
      (b = true ↔ (l.Repo = other.Repo ∧
        (l.Pkg = [] ∨ other.Pkg = l.Pkg ∨ (l.Pkg ++ ['/']) <+: other.Pkg))) ∧
      (b = true ↔ (l.Repo = other.Repo ∧
        pathComponents l.Pkg <+: pathComponents other.Pkg))) ∧
    l.Contains l = .ok true ∧
    (∀ repo n1 n2 : List Char,
      Label.Contains { Repo := repo, Pkg := "foo".toList, Name := n1, Relative := false }
        { Repo := repo, Pkg := "foo/bar".toList, Name := n2, Relative := false } = .ok true ∧
      Label.Contains { Repo := repo, Pkg := "foo".toList, Name := n1, Relative := false }
        { Repo := repo, Pkg := "foobar".toList, Name := n2, Relative := false } = .ok false) := by
  have hc : l.Contains other =
      .ok (l.Repo == other.Repo && pathtoolsHasPrefix other.Pkg l.Pkg) := by
    simp [Label.Contains, hl, ho]
  refine ⟨⟨_, hc, ?_, ?_⟩, ?_, ?_⟩
  · simp only [pathtoolsHasPrefix, stringsHasPrefix, Bool.and_eq_true, Bool.or_eq_true,
      beq_iff_eq, List.isPrefixOf_iff_prefix, or_assoc]
  · rw [← pathtoolsHasPrefix_iff_components]
    simp
  · simp [Label.Contains, hl, pathtoolsHasPrefix]
  · intro repo n1 n2
    have h1 : pathtoolsHasPrefix "foo/bar".toList "foo".toList = true := by decide
    have h2 : pathtoolsHasPrefix "foobar".toList "foo".toList = false := by decide
    simp only [Label.Contains, h1, h2]
    simp

/-- Witness of C13 at the labels `@r//a:x` and `@r//a/b:y`. -/
theorem Contains_by_path_components_witness :
    Label.Contains { Repo := ['r'], Pkg := ['a'], Name := ['x'], Relative := false }
      { Repo := ['r'], Pkg := ['a'], Name := ['x'], Relative := false } = .ok true :=
  (Contains_by_path_components { Repo := ['r'], Pkg := ['a'], Name := ['x'], Relative := false }
    { Repo := ['r'], Pkg := ['a', '/', 'b'], Name := ['y'], Relative := false } rfl rfl).2.1

/-- C20 at the inputs `"a:b"` and `"//x:a:b"`: the colon is in the class of
`labelNameRegexp`, through its range `%-@`, and `Parse` succeeds with the
name `"a:b"`. -/
theorem Parse_name_with_colon :
    isNameChar ':' = true ∧
    Parse "a:b".toList =
      ({ Repo := [], Pkg := [], Name := "a:b".toList, Relative := true }, none) ∧
    Parse "//x:a:b".toList =
      ({ Repo := [], Pkg := ['x'], Name := "a:b".toList, Relative := false }, none) := by
  decide


/-! ## Errors of the label parser -/

theorem parseRepo_before_slashes (r rest : List Char) (h : '/' ∉ r) :
    (∃ e, parseRepo ('@' :: (r ++ '/' :: '/' :: rest)) = .error e) ∨
    (∃ repo, parseRepo ('@' :: (r ++ '/' :: '/' :: rest)) =
      .ok (false, repo, '/' :: '/' :: rest)) := by
  have hi : stringsIndex ('@' :: (r ++ '/' :: '/' :: rest)) ['/', '/'] = (r.length + 1 : Nat) := by
    have := stringsIndexAux_two_found '/' ('@' :: r) rest 0 (by simp [h])
    simpa [stringsIndex] using this
  have hsplit : (splitRepo ('@' :: (r ++ '/' :: '/' :: rest))).2 = '/' :: '/' :: rest := by
    unfold splitRepo
    simp only [hi, Int.toNat_ofNat]
    have e : '@' :: (r ++ '/' :: '/' :: rest) = ('@' :: r) ++ '/' :: '/' :: rest := rfl
    have l : ('@' :: r).length = r.length + 1 := rfl
    by_cases hr : r = []
    · subst hr
      simp
    · have hlen : 0 < r.length := List.length_pos.2 hr
      rw [if_pos (by omega)]
      simp only
      rw [e, ← l, List.drop_left]
  unfold parseRepo
  rw [if_pos (by simp [stringsHasPrefix])]
  split
  · exact Or.inl ⟨_, rfl⟩
  · exact Or.inr ⟨_, by rw [hsplit]⟩

theorem splitPkg_colon (pkg rest : List Char) (hc : ':' ∉ pkg) :
    splitPkg ('/' :: '/' :: (pkg ++ ':' :: rest)) = (pkg, ':' :: rest) := by
  have hi : stringsIndex ('/' :: '/' :: (pkg ++ ':' :: rest)) [':'] = (pkg.length + 2 : Nat) := by
    have := stringsIndexAux_one_found ':' ('/' :: '/' :: pkg) rest 0 (by simp [hc])
    simpa [stringsIndex] using this
  unfold splitPkg
  simp only [hi, Int.toNat_ofNat]
  rw [if_neg (by omega)]
  have e : '/' :: '/' :: (pkg ++ ':' :: rest) = ('/' :: '/' :: pkg) ++ ':' :: rest := rfl
  have l : ('/' :: '/' :: pkg).length = pkg.length + 2 := rfl
  rw [e, ← l, List.take_left, List.drop_left]
  rfl

theorem parsePkg_before_colon (rel : Bool) (pkg rest : List Char) (hc : ':' ∉ pkg) :
    (∃ e, parsePkg rel ('/' :: '/' :: (pkg ++ ':' :: rest)) = .error e) ∨
    parsePkg rel ('/' :: '/' :: (pkg ++ ':' :: rest)) = .ok (false, pkg, ':' :: rest) := by
  unfold parsePkg
  rw [if_pos (by simp [stringsHasPrefix]), splitPkg_colon pkg rest hc]
  split
  · exact Or.inl ⟨_, rfl⟩
  · exact Or.inr rfl

theorem parseName_colon (rel : Bool) (repo pkg : List Char) :
    parseName rel repo pkg [':'] = .error .emptyName := by
  simp [parseName]

theorem parseName_nothing (rel : Bool) (repo : List Char) :
    parseName rel repo [] [] = .error .emptyPackageAndName := by
  simp [parseName, stringsTrimPrefix, stringsHasPrefix, labelNameRegexp]

theorem Parse_of_error (s : List Char) (e : ParseError) (h : parseStages s = .error e) :
    Parse s = (NoLabel, some e) := by
  simp [Parse, h]

theorem parseStages_colon_tail (s pkg : List Char) (hc : ':' ∉ pkg)
    (h : (∃ e, parseRepo s = .error e) ∨
      ∃ rel repo, parseRepo s = .ok (rel, repo, '/' :: '/' :: (pkg ++ [':']))) :
    ∃ e, parseStages s = .error e := by
  unfold parseStages
  rcases h with ⟨e, he⟩ | ⟨rel, repo, he⟩
  · exact ⟨e, by rw [he]⟩
  · rw [he]
    rcases parsePkg_before_colon rel pkg [] hc with ⟨e, hp⟩ | hp
    · exact ⟨e, by simp only [hp]⟩
    · exact ⟨.emptyName, by simp only [hp, parseName_colon]⟩

theorem parseStages_slashes_only (s : List Char)
    (h : (∃ e, parseRepo s = .error e) ∨
      ∃ rel repo, parseRepo s = .ok (rel, repo, ['/', '/'])) :
    ∃ e, parseStages s = .error e := by
  unfold parseStages
  rcases h with ⟨e, he⟩ | ⟨rel, repo, he⟩
  · exact ⟨e, by rw [he]⟩
  · rw [he]
    have hp := parsePkg_without_name rel [] (by decide)
    exact ⟨.emptyPackageAndName, by simp only [hp, parseName_nothing]⟩

/-- C15. `Parse` returns `NoLabel` and an error on the empty string, on `"//"`,
on `"@" + r + "//"` for every `r` without a slash (so on `"@//"` and on every
repository name followed by `"//"`), on `":"`, and on every input that ends
in the colon that follows the package: `"//" + pkg + ":"` and
`"@" + r + "//" + pkg + ":"` with no colon in `pkg`. -/
theorem Parse_empty_target :
    Parse [] = (NoLabel, some .emptyPackageAndName) ∧
    Parse ['/', '/'] = (NoLabel, some .emptyPackageAndName) ∧
    (∀ r : List Char, '/' ∉ r → ∃ e, Parse ('@' :: (r ++ ['/', '/'])) = (NoLabel, some e)) ∧
    Parse [':'] = (NoLabel, some .emptyName) ∧
    (∀ pkg : List Char, ':' ∉ pkg →
      ∃ e, Parse ('/' :: '/' :: (pkg ++ [':'])) = (NoLabel, some e)) ∧
    (∀ r pkg : List Char, '/' ∉ r → ':' ∉ pkg →
      ∃ e, Parse ('@' :: (r ++ '/' :: '/' :: (pkg ++ [':']))) = (NoLabel, some e)) := by
  refine ⟨by decide, by decide, ?_, by decide, ?_, ?_⟩
  · intro r hr
    obtain ⟨e, he⟩ := parseStages_slashes_only ('@' :: (r ++ ['/', '/'])) (by
      rcases parseRepo_before_slashes r [] hr with h | ⟨repo, h⟩
      · exact Or.inl h
      · exact Or.inr ⟨_, repo, h⟩)
    exact ⟨e, Parse_of_error _ _ he⟩
  · intro pkg hc
    obtain ⟨e, he⟩ := parseStages_colon_tail ('/' :: '/' :: (pkg ++ [':'])) pkg hc
      (Or.inr ⟨_, _, parseRepo_slashes _⟩)
    exact ⟨e, Parse_of_error _ _ he⟩
  · intro r pkg hr hc
    obtain ⟨e, he⟩ := parseStages_colon_tail ('@' :: (r ++ '/' :: '/' :: (pkg ++ [':']))) pkg hc (by
      rcases parseRepo_before_slashes r (pkg ++ [':']) hr with h | ⟨repo, h⟩
      · exact Or.inl h
      · exact Or.inr ⟨_, repo, h⟩)
    exact ⟨e, Parse_of_error _ _ he⟩

/-- Witness of C15 at the inputs `"@a//"`, `"//a:"` and `"@a//b:"`. -/
theorem Parse_empty_target_witness :
    (∃ e, Parse ('@' :: (['a'] ++ ['/', '/'])) = (NoLabel, some e)) ∧
    (∃ e, Parse ('/' :: '/' :: (['a'] ++ [':'])) = (NoLabel, some e)) ∧
    (∃ e, Parse ('@' :: (['a'] ++ '/' :: '/' :: (['b'] ++ [':']))) = (NoLabel, some e)) :=
  ⟨Parse_empty_target.2.2.1 ['a'] (by decide),
    Parse_empty_target.2.2.2.2.1 ['a'] (by decide),
    Parse_empty_target.2.2.2.2.2 ['a'] ['b'] (by decide) (by decide)⟩


/-! ## Properties of the encoder and of `ImportPathToBazelRepoName` -/

theorem escapeRune_digit (c : Char) (h : inRange '0' '9' c = true) : escapeRune c = [c] := by
  simp only [inRange, Bool.and_eq_true, decide_eq_true_eq] at h
  have h1 : 48 ≤ c.toNat := h.1
  have h2 : c.toNat ≤ 57 := h.2
  have hc : c = Char.ofNat c.toNat := (Char.ofNat_toNat c).symm
  generalize c.toNat = n at h1 h2 hc
  subst hc
  interval_cases n <;> decide

theorem escapeRune_typical (c : Char) (h : isTypicalPathChar c = true) :
    escapeRune c = [if c = '/' then '_' else c] := by
  simp only [isTypicalPathChar, Bool.or_eq_true, beq_iff_eq] at h
  rcases h with (((h | h) | h) | h) | h
  · have hs : c ≠ '/' := by rintro rfl; revert h; decide
    rw [escapeRune_lower c h, if_neg hs]
  · have hs : c ≠ '/' := by rintro rfl; revert h; decide
    rw [escapeRune_digit c h, if_neg hs]
  · subst h; decide
  · subst h; decide
  · subst h; decide

theorem flatMap_escapeRune_typical (p : List Char) (h : ∀ x ∈ p, isTypicalPathChar x = true) :
    p.flatMap escapeRune = p.map (fun c => if c = '/' then '_' else c) := by
  induction p with
  | nil => rfl
  | cons c cs ih =>
    rw [List.flatMap_cons, escapeRune_typical c (h c (by simp)),
      ih (fun x hx => h x (List.mem_cons_of_mem _ hx))]
    rfl

/-- C17. For every typical module path `p` (lower-case letters, digits, `.`,
`-` and `/`, starting with a lower-case letter and ending with a letter or a
digit), the encoder returns `p` with every `/` replaced by `_` and every
other character kept, a name of the same length. -/
theorem typical_path_encoding (p : List Char) (h : typicalModulePath p = true) :
    ∃ r, ModulePathToBazelRepoNameOneToOne p = some r ∧ r.length = p.length ∧
      r = p.map (fun c => if c = '/' then '_' else c) := by
  simp only [typicalModulePath, Bool.and_eq_true, List.all_eq_true] at h
  obtain ⟨⟨hall, hhead⟩, hlast⟩ := h
  cases p with
  | nil => simp at hhead
  | cons c rest =>
    simp only [List.head?_cons] at hhead
    have hlead : escapeLeading c rest = c :: rest := by
      unfold escapeLeading
      rw [lower_not_leading_escape c hhead]
      rfl
    have hpad : padTrailing (c :: rest) = some (c :: rest) := by
      unfold padTrailing
      cases hl : (c :: rest).getLast? with
      | none => rw [hl] at hlast; simp at hlast
      | some l =>
        rw [hl] at hlast
        simp only [Bool.or_eq_true] at hlast
        have : (!unicodeIsDigit l && !unicodeIsLetter l) = false := by
          rcases hlast with h1 | h1 <;> simp [h1]
        simp [this]
    refine ⟨(c :: rest).flatMap escapeRune,
      by simp only [ModulePathToBazelRepoNameOneToOne, hlead, hpad], ?_, ?_⟩
    · rw [flatMap_escapeRune_typical _ hall, List.length_map]
    · exact flatMap_escapeRune_typical _ hall

/-- Witness of C17 at `github.com/goccy/go-yaml`. -/
theorem typical_path_encoding_witness :
    typicalModulePath "github.com/goccy/go-yaml".toList = true ∧
      ∃ r, ModulePathToBazelRepoNameOneToOne "github.com/goccy/go-yaml".toList = some r ∧
        r.length = "github.com/goccy/go-yaml".toList.length ∧
        r = "github.com/goccy/go-yaml".toList.map (fun c => if c = '/' then '_' else c) :=
  ⟨by decide, typical_path_encoding "github.com/goccy/go-yaml".toList (by decide)⟩

theorem stringsSplit_ne_nil (sep : Char) (p : List Char) : stringsSplit sep p ≠ [] := by
  cases p with
  | nil => simp [stringsSplit]
  | cons c cs =>
    unfold stringsSplit
    split
    · simp
    · split <;> simp

theorem stringsSplit_of_not_mem (sep : Char) (p : List Char) (h : sep ∉ p) :
    stringsSplit sep p = [p] := by
  induction p with
  | nil => rfl
  | cons c cs ih =>
    have h1 : c ≠ sep := fun e => h (by simp [e])
    have h2 : sep ∉ cs := fun e => h (by simp [e])
    simp [stringsSplit, h1, ih h2]

theorem stringsSplit_append (sep : Char) (xs ys : List Char) :
    stringsSplit sep (xs ++ sep :: ys) = stringsSplit sep xs ++ stringsSplit sep ys := by
  induction xs with
  | nil => simp [stringsSplit]
  | cons c cs ih =>
    by_cases hc : c = sep
    · simp [stringsSplit, hc, ih]
    · obtain ⟨e, es, he⟩ := List.exists_cons_of_ne_nil (stringsSplit_ne_nil sep cs)
      simp [stringsSplit, hc, ih, he]

theorem stringsSplit_join (sep : Char) (xs : List (List Char)) (hne : xs ≠ [])
    (h : ∀ x ∈ xs, sep ∉ x) : stringsSplit sep (stringsJoin [sep] xs) = xs := by
  induction xs with
  | nil => exact absurd rfl hne
  | cons x xs ih =>
    cases xs with
    | nil => simpa [stringsJoin] using stringsSplit_of_not_mem sep x (h x (by simp))
    | cons y ys =>
      have e : stringsJoin [sep] (x :: y :: ys) = x ++ sep :: stringsJoin [sep] (y :: ys) := by
        simp [stringsJoin]
      rw [e, stringsSplit_append, stringsSplit_of_not_mem sep x (h x (by simp)),
        ih (by simp) (fun z hz => h z (List.mem_cons_of_mem _ hz))]
      rfl

theorem mem_stringsJoin (sep : List Char) (xs : List (List Char)) (c : Char)
    (h : c ∈ stringsJoin sep xs) : c ∈ sep ∨ ∃ x ∈ xs, c ∈ x := by
  induction xs with
  | nil => simp [stringsJoin] at h
  | cons x xs ih =>
    cases xs with
    | nil => exact Or.inr ⟨x, by simp, by simpa [stringsJoin] using h⟩
    | cons y ys =>
      simp only [stringsJoin, List.mem_append] at h
      rcases h with (h | h) | h
      · exact Or.inr ⟨x, by simp, h⟩
      · exact Or.inl h
      · rcases ih h with h1 | ⟨z, hz, hc⟩
        · exact Or.inl h1
        · exact Or.inr ⟨z, List.mem_cons_of_mem _ hz, hc⟩

theorem stringsToLower_join (sep : List Char) (xs : List (List Char)) :
    stringsToLower (stringsJoin sep xs) =
      stringsJoin (stringsToLower sep) (xs.map stringsToLower) := by
  induction xs with
  | nil => rfl
  | cons x xs ih =>
    cases xs with
    | nil => simp [stringsJoin]
    | cons y ys =>
      simp only [stringsJoin, List.map_cons] at ih ⊢
      rw [← ih]
      simp [stringsToLower]

theorem isWordChar_toLower (c : Char) (h : isWordChar c = true) :
    isWordChar c.toLower = true := by
  by_cases hu : inRange 'A' 'Z' c = true
  · simp [isWordChar, (toUpper_toLower_of_upper c hu).1]
  · have e : c.toLower = c := by
      simp only [inRange, Bool.and_eq_true, decide_eq_true_eq, not_and, not_le] at hu
      have h1 : ¬ (65 ≤ c.toNat ∧ c.toNat ≤ 90) := by
        rintro ⟨a, b⟩
        have := hu a
        simp at this
        omega
      unfold Char.toLower
      simp only
      rw [if_neg h1]
    rw [e]
    exact h

theorem isWordChar_ne (c : Char) (h : isWordChar c = true) : c ≠ '/' ∧ c ≠ '.' := by
  constructor <;> (rintro rfl; revert h; decide)

theorem isWordPiece_iff (x : List Char) :
    isWordPiece x = true ↔ x ≠ [] ∧ ∀ c ∈ x, isWordChar c = true := by
  simp [isWordPiece]

theorem isWordPiece_toLower (x : List Char) (h : isWordPiece x = true) :
    isWordPiece (stringsToLower x) = true := by
  rw [isWordPiece_iff] at h ⊢
  refine ⟨by simpa [stringsToLower] using h.1, ?_⟩
  intro c hc
  simp only [stringsToLower, List.mem_map] at hc
  obtain ⟨a, ha, rfl⟩ := hc
  exact isWordChar_toLower a (h.2 a ha)

theorem nonWordReplaceAux_word (x rest : List Char) (b : Bool)
    (h : ∀ c ∈ x, isWordChar c = true) :
    nonWordReplaceAux b (x ++ rest) =
      x ++ nonWordReplaceAux (if x = [] then b else false) rest := by
  induction x generalizing b with
  | nil => simp
  | cons c cs ih =>
    have hc := h c (by simp)
    simp only [List.cons_append, nonWordReplaceAux, hc, if_true, List.append_eq]
    rw [ih false (fun d hd => h d (List.mem_cons_of_mem _ hd))]
    simp

theorem nonWordReplaceAux_join (xs : List (List Char)) (b : Bool)
    (h : ∀ x ∈ xs, isWordPiece x = true) :
    nonWordReplaceAux b (stringsJoin ['.'] xs) = stringsJoin ['_'] xs := by
  induction xs generalizing b with
  | nil => rfl
  | cons x xs ih =>
    have hx := (isWordPiece_iff x).1 (h x (by simp))
    cases xs with
    | nil =>
      have := nonWordReplaceAux_word x [] b hx.2
      simpa [stringsJoin, nonWordReplaceAux] using this
    | cons y ys =>
      have e : stringsJoin ['.'] (x :: y :: ys) = x ++ '.' :: stringsJoin ['.'] (y :: ys) := by
        simp [stringsJoin]
      rw [e, nonWordReplaceAux_word x _ b hx.2, if_neg hx.1]
      have hdot : isWordChar '.' = false := by decide
      simp only [nonWordReplaceAux, hdot, Bool.false_eq_true, if_false]
      rw [ih true (fun z hz => h z (List.mem_cons_of_mem _ hz))]
      simp [stringsJoin]

/-- The result of `ImportPathToBazelRepoName` on pieces joined by `.` and `/`,
in terms of `strings.ToLower` as the code applies it. -/
theorem importPath_reversed_pieces (ds cs : List (List Char)) (hne : ds ≠ [])
    (hd : ∀ d ∈ ds, isWordPiece d = true) (hc : ∀ c ∈ cs, isWordPiece c = true) :
    ImportPathToBazelRepoName (stringsJoin ['/'] (stringsJoin ['.'] ds :: cs)) =
      stringsJoin ['_'] ((ds.reverse ++ cs).map stringsToLower) := by
  have hd1 : ∀ d ∈ ds.map stringsToLower, isWordPiece d = true := by
    intro d hd0
    obtain ⟨a, ha, rfl⟩ := List.mem_map.1 hd0
    exact isWordPiece_toLower a (hd a ha)
  have hc1 : ∀ c ∈ cs.map stringsToLower, isWordPiece c = true := by
    intro c hc0
    obtain ⟨a, ha, rfl⟩ := List.mem_map.1 hc0
    exact isWordPiece_toLower a (hc a ha)
  have hne1 : ds.map stringsToLower ≠ [] := by simpa using hne
  have hnot : ∀ (sep : Char), (sep = '/' ∨ sep = '.') → ∀ x : List Char,
      isWordPiece x = true → sep ∉ x := by
    intro sep hsep x hx hm
    have := isWordChar_ne sep (((isWordPiece_iff x).1 hx).2 sep hm)
    rcases hsep with rfl | rfl
    · exact this.1 rfl
    · exact this.2 rfl
  have hlow : stringsToLower (stringsJoin ['/'] (stringsJoin ['.'] ds :: cs)) =
      stringsJoin ['/'] (stringsJoin ['.'] (ds.map stringsToLower) :: cs.map stringsToLower) := by
    rw [stringsToLower_join, List.map_cons, stringsToLower_join]
    rfl
  have hsplit : stringsSplit '/'
      (stringsJoin ['/'] (stringsJoin ['.'] (ds.map stringsToLower) :: cs.map stringsToLower)) =
      stringsJoin ['.'] (ds.map stringsToLower) :: cs.map stringsToLower := by
    apply stringsSplit_join _ _ (by simp)
    intro x hx hm
    rcases List.mem_cons.1 hx with rfl | hx
    · rcases mem_stringsJoin _ _ _ hm with h1 | ⟨z, hz, h1⟩
      · simp at h1
      · exact hnot '/' (Or.inl rfl) z (hd1 z hz) h1
    · exact hnot '/' (Or.inl rfl) x (hc1 x hx) hm
  have hlabels : stringsSplit '.' (stringsJoin ['.'] (ds.map stringsToLower)) =
      ds.map stringsToLower :=
    stringsSplit_join _ _ hne1 (fun x hx => hnot '.' (Or.inr rfl) x (hd1 x hx))
  unfold ImportPathToBazelRepoName
  simp only [hlow, hsplit, List.headD_cons, List.tail_cons, hlabels, nonWordReplaceAll]
  rw [nonWordReplaceAux_join]
  · simp [List.map_reverse]
  · intro x hx
    rcases List.mem_append.1 hx with hx | hx
    · exact hd1 x (List.mem_reverse.1 hx)
    · exact hc1 x hx

/-! ## Properties of the decoder on arbitrary input -/

theorem decodeLoop_eq_decodeScan (r : List Char) :
    ∀ (fuel pos : Nat) (mp : List Char), r.length - pos < fuel →
      decodeLoop r fuel pos mp = decodeScan (r.drop pos) mp := by
  intro fuel
  induction fuel with
  | zero => intro pos mp h; omega
  | succ f ih =>
    intro pos mp hf
    have hd : ∀ k, r[pos + k]? = (r.drop pos)[k]? := fun k => (List.getElem?_drop r pos k).symm
    have hdd : ∀ k, r.drop (pos + k) = (r.drop pos).drop k := fun k => by
      rw [List.drop_drop, Nat.add_comm]
    have hlen : (r.drop pos).length = r.length - pos := List.length_drop _ _
    have h0 := hd 0
    have h1 := hd 1
    have h2 := hd 2
    have d1 := hdd 1
    have d3 := hdd 3
    simp only [Nat.add_zero] at h0
    have ih1 : ∀ mp1, r.length - pos ≠ 0 →
        decodeLoop r f (pos + 1) mp1 = decodeScan ((r.drop pos).drop 1) mp1 := by
      intro mp1 hne
      rw [ih (pos + 1) mp1 (by omega), d1]
    have ih3 : ∀ mp1, r.length - pos ≠ 0 →
        decodeLoop r f (pos + 3) mp1 = decodeScan ((r.drop pos).drop 3) mp1 := by
      intro mp1 hne
      rw [ih (pos + 3) mp1 (by omega), d3]
    rw [decodeLoop]
    generalize r.drop pos = d at *
    match d, hlen with
    | [], hlen =>
      simp only [List.length_nil] at hlen
      rw [if_neg (by omega)]
      simp [decodeScan, decodeFinish]
    | [c], hlen =>
      simp only [List.length_singleton] at hlen
      have hne : r.length - pos ≠ 0 := by omega
      rw [if_pos (by omega), h0]
      simp only [List.getElem?_cons_zero]
      by_cases hc : c = '_'
      · simp [hc, ih1 _ hne, decodeScan]
      · have hl : pos + 1 = r.length := by omega
        rw [if_neg hc, if_pos (Or.inr hl), ih1 _ hne]
        simp [decodeScan, hc]
    | [c, c1], hlen =>
      simp only [List.length_cons, List.length_nil] at hlen
      have hne : r.length - pos ≠ 0 := by omega
      have hl1 : pos + 1 ≠ r.length := by omega
      have hl2 : pos + 2 = r.length := by omega
      rw [if_pos (by omega), h0]
      simp only [List.getElem?_cons_zero, h1, List.getElem?_cons_succ, hl1, hl2, or_false]
      by_cases hc : c = '_'
      · simp [hc, ih1 _ hne, decodeScan]
      · by_cases hdot : c = '.'
        · by_cases hu : c1 = '_'
          · simp [hdot, hu, decodeScan]
          · simp [hdot, hu, ih1 _ hne, decodeScan]
        · simp [hc, hdot, ih1 _ hne, decodeScan]
    | c :: c1 :: c2 :: rest, hlen =>
      simp only [List.length_cons] at hlen
      have hne : r.length - pos ≠ 0 := by omega
      have hl1 : pos + 1 ≠ r.length := by omega
      have hl2 : pos + 2 ≠ r.length := by omega
      rw [if_pos (by omega), h0]
      simp only [List.getElem?_cons_zero, h1, h2, List.getElem?_cons_succ, hl1, hl2, or_false]
      by_cases hc : c = '_'
      · simp [hc, ih1 _ hne, decodeScan]
      · by_cases hdot : c = '.'
        · by_cases hu : c1 = '_'
          · simp only [hdot, hu, ih3 _ hne, decodeScan]
            simp
          · simp [hdot, hu, ih1 _ hne, decodeScan]
        · simp [hc, hdot, ih1 _ hne, decodeScan]

theorem decode_eq_decodeScan (r : List Char) :
    BazelRepoNameToModulePathOneToOne r = decodeScan r [] := by
  unfold BazelRepoNameToModulePathOneToOne
  rw [decodeLoop_eq_decodeScan r _ 0 [] (by omega)]
  rfl

theorem containsInvalidEscape_cons (c : Char) (rest : List Char)
    (h : containsInvalidEscape rest = true) : containsInvalidEscape (c :: rest) = true := by
  simp [containsInvalidEscape, h]

theorem decodeScan_ok_or_invalid (n : Nat) :
    ∀ (d mp : List Char), d.length ≤ n →
      (∃ p, decodeScan d mp = .ok p) ∨
        ((decodeScan d mp).isError = true ∧ containsInvalidEscape d = true) := by
  induction n with
  | zero =>
    intro d mp h
    have : d = [] := List.length_eq_zero.1 (by omega)
    subst this
    exact Or.inl (by simp [decodeScan])
  | succ n ih =>
    intro d mp h
    match d, h with
    | [], _ => exact Or.inl (by simp [decodeScan])
    | [c], _ => exact Or.inl (by simp [decodeScan])
    | [c, c1], h =>
      have lift : ∀ mp1, ((∃ p, decodeScan [c1] mp1 = .ok p) ∨
          ((decodeScan [c1] mp1).isError = true ∧ containsInvalidEscape [c1] = true)) :=
        fun mp1 => ih [c1] mp1 (by simp at h ⊢; omega)
      simp only [decodeScan]
      by_cases hc : c = '_'
      · rw [if_pos hc]
        exact Or.inl (by simp [decodeScan])
      · rw [if_neg hc]
        by_cases h2 : c ≠ '.' ∨ c1 ≠ '_'
        · rw [if_pos h2]
          exact Or.inl (by simp [decodeScan])
        · rw [if_neg h2]
          simp only [ne_eq, not_or, Decidable.not_not] at h2
          obtain ⟨rfl, rfl⟩ := h2
          exact Or.inr ⟨rfl, by decide⟩
    | c :: c1 :: c2 :: rest, h =>
      have lift1 : ∀ mp1, ((∃ p, decodeScan (c1 :: c2 :: rest) mp1 = .ok p) ∨
          ((decodeScan (c1 :: c2 :: rest) mp1).isError = true ∧
            containsInvalidEscape (c :: c1 :: c2 :: rest) = true)) := by
        intro mp1
        rcases ih (c1 :: c2 :: rest) mp1 (by simp at h ⊢; omega) with h1 | ⟨h1, h2⟩
        · exact Or.inl h1
        · exact Or.inr ⟨h1, containsInvalidEscape_cons _ _ h2⟩
      have lift3 : ∀ mp1, ((∃ p, decodeScan rest mp1 = .ok p) ∨
          ((decodeScan rest mp1).isError = true ∧
            containsInvalidEscape (c :: c1 :: c2 :: rest) = true)) := by
        intro mp1
        rcases ih rest mp1 (by simp at h ⊢; omega) with h1 | ⟨h1, h2⟩
        · exact Or.inl h1
        · exact Or.inr ⟨h1, containsInvalidEscape_cons _ _
            (containsInvalidEscape_cons _ _ (containsInvalidEscape_cons _ _ h2))⟩
      simp only [decodeScan]
      by_cases hc : c = '_'
      · rw [if_pos hc]
        exact lift1 _
      · rw [if_neg hc]
        by_cases h2 : c ≠ '.' ∨ c1 ≠ '_'
        · rw [if_pos h2]
          exact lift1 _
        · rw [if_neg h2]
          simp only [ne_eq, not_or, Decidable.not_not] at h2
          obtain ⟨rfl, rfl⟩ := h2
          by_cases e1 : c2 = '.'
          · rw [if_pos e1]
            exact lift3 _
          · rw [if_neg e1]
            by_cases e2 : c2 = '-'
            · rw [if_pos e2]
              exact lift3 _
            · rw [if_neg e2]
              by_cases e3 : inRange 'a' 'z' c2 = true
              · rw [if_pos e3]
                exact lift3 _
              · rw [if_neg e3]
                refine Or.inr ⟨rfl, ?_⟩
                simp [containsInvalidEscape, startsInvalidEscape, e1, e2, e3]

/-- An error of the decoder comes from an invalid escape in the input, and
without one the decoder returns a module path. -/
theorem decode_error_implies_invalid_escape (r : List Char) :
    ((BazelRepoNameToModulePathOneToOne r).isError = true →
      containsInvalidEscape r = true) ∧
    (containsInvalidEscape r = false →
      ∃ p, BazelRepoNameToModulePathOneToOne r = .ok p) := by
  rw [decode_eq_decodeScan]
  rcases decodeScan_ok_or_invalid r.length r [] (le_refl _) with ⟨p, hp⟩ | ⟨h1, h2⟩
  · rw [hp]
    exact ⟨fun h => by simp [DecodeResult.isError] at h, fun _ => ⟨p, rfl⟩⟩
  · exact ⟨fun _ => h2, fun h => by rw [h2] at h; simp at h⟩

/-- C19 as stated fails: `"._._"` contains `._` followed by the end of the
text, and the decoder returns `"_/"` without error, because that `._` begins
at the third character of the escape `._.`. -/
theorem decode_error_iff_counterexample :
    ¬ (∀ r : List Char, (BazelRepoNameToModulePathOneToOne r).isError = true ↔
        containsInvalidEscape r = true) := by
  intro h
  have := h "._._".toList
  revert this
  decide

theorem decode_encode_of_valid (p : List Char) (h : validModulePath p = true) :
    ∃ r, ModulePathToBazelRepoNameOneToOne p = some r ∧
      BazelRepoNameToModulePathOneToOne r = .ok p := by
  have hshape : validModulePathShape p = true := by
    simp only [validModulePath, Bool.and_eq_true] at h
    exact h.1
  obtain ⟨q, henc, hchain, hfin, _⟩ := encode_prepared p hshape
  refine ⟨_, henc, ?_⟩
  unfold BazelRepoNameToModulePathOneToOne
  have := decodeLoop_escaped q [] [] ((q.flatMap escapeRune).length + 1) hchain
    (by have := length_le_flatMap_escapeRune q; omega)
  simp only [List.nil_append, List.length_nil] at this
  rw [this, hfin (valid_not_con p h)]

/-- C18 as stated fails: the decoder returns `"A"` for the input `"A"` without
error, and the encoding of `"A"` is `"a._-._a.a"`, not `"A"`. -/
theorem decode_then_encode_counterexample :
    ¬ (∀ r p : List Char, BazelRepoNameToModulePathOneToOne r = .ok p →
        ModulePathToBazelRepoNameOneToOne p = some r) := by
  intro h
  have := h ['A'] ['A'] (by decide)
  revert this
  decide

/-! ## Injectivity of the encoder -/

theorem noDotSlash_of_hasDotSlash (p : List Char) (h : hasDotSlash p = false) : NoDotSlash p := by
  induction p with
  | nil => exact List.chain'_nil
  | cons c cs ih =>
    cases cs with
    | nil => exact List.chain'_singleton c
    | cons d ds =>
      simp only [hasDotSlash, Bool.or_eq_false_iff, Bool.and_eq_false_imp, beq_iff_eq,
        beq_eq_false_iff_ne] at h
      unfold NoDotSlash
      rw [List.chain'_cons]
      exact ⟨fun hh => h.1 hh.1 hh.2, ih h.2⟩

theorem replaceEscapedLeading_of_no_match (p : List Char)
    (h : escapedLeadingCharacterPattern p = false) : replaceEscapedLeading p = p := by
  unfold replaceEscapedLeading
  split
  · rename_i c0 c1 x c3 c4 rest
    rw [if_neg]
    rintro ⟨rfl, rfl, h2, rfl, rfl⟩
    simp [escapedLeadingCharacterPattern, h2] at h
  · rfl

theorem no_match_append_con (p : List Char) (hne : p ≠ [])
    (h : escapedLeadingCharacterPattern p = false) :
    escapedLeadingCharacterPattern (p ++ ['/', 'c', 'o', 'n']) = false := by
  match p, hne, h with
  | [c0], _, _ => simp [escapedLeadingCharacterPattern]
  | [c0, c1], _, _ => simp [escapedLeadingCharacterPattern]
  | [c0, c1, c2], _, _ => simp [escapedLeadingCharacterPattern]
  | [c0, c1, c2, c3], _, _ => simp [escapedLeadingCharacterPattern]
  | c0 :: c1 :: c2 :: c3 :: c4 :: rest, _, h =>
    simpa [escapedLeadingCharacterPattern] using h

theorem leading_escape_ne_newline (c : Char)
    (h : (unicodeIsDigit c || unicodeIsUpper c || decide (c = '_') || decide (c = '.')) = true) :
    c ≠ Char.ofNat 10 := by
  rintro rfl
  revert h
  decide

/-- What the encoder does on a reversible source path: it escapes, rune by
rune, a prepared path without `./` from which the end of the decoder
recovers the source. -/
theorem encode_prepared_reversible (p : List Char) (h : reversibleSource p = true) :
    ∃ q, ModulePathToBazelRepoNameOneToOne p = some (q.flatMap escapeRune) ∧
      NoDotSlash q ∧ decodeFinish q = p := by
  simp only [reversibleSource, inSourceAlphabet, Bool.and_eq_true, Bool.not_eq_true',
    bne_iff_ne, ne_eq] at h
  obtain ⟨⟨⟨⟨⟨⟨hne, _⟩, _⟩, hlast⟩, hds⟩, hcon⟩, hpat⟩ := h
  have hchain := noDotSlash_of_hasDotSlash p hds
  have hnotsuf : ¬ ['/', 'c', 'o', 'n'] <:+ p := by
    intro hs
    have : stringsHasSuffix p ['/', 'c', 'o', 'n'] = true := by
      unfold stringsHasSuffix
      exact List.isSuffixOf_iff_suffix.2 hs
    rw [this] at hcon
    exact Bool.noConfusion hcon
  cases p with
  | nil => simp at hne
  | cons c rest =>
    -- the leading escape
    have lead : ∃ q0, escapeLeading c rest = q0 ∧ NoDotSlash q0 ∧
        (∃ l, q0.getLast? = some l ∧ l ≠ '.') ∧
        replaceEscapedLeading q0 = c :: rest ∧
        replaceEscapedLeading (q0 ++ ['/', 'c', 'o', 'n']) = c :: rest ++ ['/', 'c', 'o', 'n'] := by
      by_cases hb : (unicodeIsDigit c || unicodeIsUpper c || decide (c = '_') ||
          decide (c = '.')) = true
      · refine ⟨'a' :: '~' :: c :: '.' :: 'a' :: rest, by simp [escapeLeading, hb], ?_, ?_,
          replaceEscapedLeading_escaped c _ (leading_escape_ne_newline c hb),
          replaceEscapedLeading_escaped c _ (leading_escape_ne_newline c hb)⟩
        · have ht : NoDotSlash rest := List.Chain'.tail hchain
          unfold NoDotSlash at ht ⊢
          simp only [List.chain'_cons]
          refine ⟨by decide, by simp, by simp, by decide, ?_⟩
          rw [List.chain'_cons']
          exact ⟨fun y _ => by simp, ht⟩
        · cases rest with
          | nil => exact ⟨'a', by simp [List.getLast?_cons_cons], by decide⟩
          | cons d ds =>
            cases hl : (c :: d :: ds).getLast? with
            | none => simp at hl
            | some l =>
              refine ⟨l, ?_, fun e => hlast (by rw [hl, e])⟩
              simpa [List.getLast?_cons_cons] using hl
      · have e : escapeLeading c rest = c :: rest := by
          unfold escapeLeading
          rw [if_neg hb]
        refine ⟨c :: rest, e, hchain, ?_, replaceEscapedLeading_of_no_match _ hpat,
          replaceEscapedLeading_of_no_match _ (no_match_append_con _ (by simp) hpat)⟩
        cases hl : (c :: rest).getLast? with
        | none => simp at hl
        | some l => exact ⟨l, rfl, fun e => hlast (by rw [hl, e])⟩
    obtain ⟨q0, hq0, hc0, ⟨l, hl, hldot⟩, hr1, hr2⟩ := lead
    by_cases hpad : (!unicodeIsDigit l && !unicodeIsLetter l) = true
    · refine ⟨q0 ++ ['/', 'c', 'o', 'n'], ?_, ?_, ?_⟩
      · simp [ModulePathToBazelRepoNameOneToOne, padTrailing, hq0, hl, hpad]
      · unfold NoDotSlash at hc0 ⊢
        refine List.Chain'.append hc0 (by simp [List.chain'_cons]) ?_
        intro x hx y hy
        rw [hl] at hx
        simp only [Option.mem_def, Option.some.injEq] at hx
        subst hx
        exact fun hh => hldot hh.1
      · unfold decodeFinish
        rw [hr2, stringsTrimSuffix_append]
    · refine ⟨q0, ?_, hc0, ?_⟩
      · simp [ModulePathToBazelRepoNameOneToOne, padTrailing, hq0, hl, hpad]
      · unfold decodeFinish
        rw [hr1, stringsTrimSuffix_of_not_suffix _ _ hnotsuf]

theorem decode_encode_reversible (p : List Char) (h : reversibleSource p = true) :
    ∃ r, ModulePathToBazelRepoNameOneToOne p = some r ∧
      BazelRepoNameToModulePathOneToOne r = .ok p := by
  obtain ⟨q, henc, hchain, hfin⟩ := encode_prepared_reversible p h
  refine ⟨_, henc, ?_⟩
  unfold BazelRepoNameToModulePathOneToOne
  have := decodeLoop_escaped q [] [] ((q.flatMap escapeRune).length + 1) hchain
    (by have := length_le_flatMap_escapeRune q; omega)
  simp only [List.nil_append, List.length_nil] at this
  rw [this, hfin]

/-- C21, amended. On the source alphabet without the three forms the encoder
reserves (no `./` inside, no `/con` at the end, no `a~C.a` at the start) the
encoding is injective: two such paths with the same encoding are equal. -/
theorem encode_injective_on_reversible (p q : List Char) (hp : reversibleSource p = true)
    (hq : reversibleSource q = true)
    (h : ModulePathToBazelRepoNameOneToOne p = ModulePathToBazelRepoNameOneToOne q) :
    p = q := by
  obtain ⟨r1, e1, d1⟩ := decode_encode_reversible p hp
  obtain ⟨r2, e2, d2⟩ := decode_encode_reversible q hq
  rw [e1, e2] at h
  obtain rfl := Option.some.inj h
  rw [d1] at d2
  exact DecodeResult.ok.inj d2

/-- Witness of C21 at `a_B~/x-` taken twice. -/
theorem encode_injective_on_reversible_witness :
    reversibleSource "a_B~/x-".toList = true ∧ "a_B~/x-".toList = "a_B~/x-".toList :=
  ⟨by decide,
    encode_injective_on_reversible "a_B~/x-".toList "a_B~/x-".toList (by decide) (by decide)
      rfl⟩

/-- C21 as stated fails: `a./b` and `aB` are in the source alphabet, neither
starts or ends with a dot, and both are encoded as `a._b`. -/
theorem encode_injective_counterexample :
    ¬ (∀ p q : List Char, inSourceAlphabet p = true → inSourceAlphabet q = true →
        ModulePathToBazelRepoNameOneToOne p = ModulePathToBazelRepoNameOneToOne q → p = q) := by
  intro h
  have := h "a./b".toList "aB".toList (by decide) (by decide) (by decide)
  revert this
  decide


/-! ## Totality of the decoder, and `Rel` after `Abs` -/

/-- C22. For every input `r` the decoder's scan ends within `len(r) + 1`
steps, with the same result for every larger step bound, none of its accesses
`r[pos]`, `r[pos+1]`, `r[pos+2]` is out of range, and the result is a module
path or one of the two errors; so for the empty string, for a string ending
in `.` and for one ending in `._`. -/
theorem decode_total_and_index_safe (r : List Char) :
    (∀ fuel, r.length < fuel →
      decodeLoop r fuel 0 [] = BazelRepoNameToModulePathOneToOne r) ∧
    BazelRepoNameToModulePathOneToOne r ≠ .outOfFuel ∧
    BazelRepoNameToModulePathOneToOne r ≠ .indexOutOfRange ∧
    ((∃ p, BazelRepoNameToModulePathOneToOne r = .ok p) ∨
      BazelRepoNameToModulePathOneToOne r = .invalidEscapeAtEnd ∨
      ∃ c, BazelRepoNameToModulePathOneToOne r = .invalidEscape c) ∧
    BazelRepoNameToModulePathOneToOne [] = .ok [] ∧
    BazelRepoNameToModulePathOneToOne ['a', '.'] = .ok ['a', '.'] ∧
    BazelRepoNameToModulePathOneToOne ['a', '.', '_'] = .invalidEscapeAtEnd := by
  have key : (∃ p, BazelRepoNameToModulePathOneToOne r = .ok p) ∨
      BazelRepoNameToModulePathOneToOne r = .invalidEscapeAtEnd ∨
      ∃ c, BazelRepoNameToModulePathOneToOne r = .invalidEscape c := by
    rw [decode_eq_decodeScan]
    rcases decodeScan_ok_or_invalid r.length r [] (le_refl _) with h | ⟨h, _⟩
    · exact Or.inl h
    · right
      cases hd : decodeScan r [] with
      | ok p => rw [hd] at h; simp [DecodeResult.isError] at h
      | invalidEscapeAtEnd => exact Or.inl rfl
      | invalidEscape c => exact Or.inr ⟨c, rfl⟩
      | indexOutOfRange => rw [hd] at h; simp [DecodeResult.isError] at h
      | outOfFuel => rw [hd] at h; simp [DecodeResult.isError] at h
  refine ⟨?_, ?_, ?_, key, by decide, by decide, by decide⟩
  · intro fuel hf
    rw [decode_eq_decodeScan, decodeLoop_eq_decodeScan r fuel 0 [] (by omega)]
    rfl
  · rcases key with ⟨p, h⟩ | h | ⟨c, h⟩ <;> rw [h] <;> simp
  · rcases key with ⟨p, h⟩ | h | ⟨c, h⟩ <;> rw [h] <;> simp

/-- Witness of C22 at the step bound 10 for the input `"x._"`. -/
theorem decode_total_and_index_safe_witness :
    decodeLoop ['x', '.', '_'] 10 0 [] = BazelRepoNameToModulePathOneToOne ['x', '.', '_'] :=
  (decode_total_and_index_safe ['x', '.', '_']).1 10 (by decide)

/-- C23. For a relative label `l` with empty repository and package,
`l.Abs(r, p).Rel(r, p)` is `l`. -/
theorem Rel_Abs_of_relative (l : Label) (r p : List Char) (hrel : l.Relative = true)
    (hrepo : l.Repo = []) (hpkg : l.Pkg = []) : (l.Abs r p).Rel r p = l := by
  obtain ⟨repo, pkg, name, rel⟩ := l
  simp only at hrel hrepo hpkg
  subst hrel hrepo hpkg
  simp [Label.Abs, Label.Rel]

/-- Witness of C23 at the relative label `:a`. -/
theorem Rel_Abs_of_relative_witness :
    Label.Rel (Label.Abs { Repo := [], Pkg := [], Name := ['a'], Relative := true } ['r'] ['p'])
        ['r'] ['p'] =
      { Repo := [], Pkg := [], Name := ['a'], Relative := true } :=
  Rel_Abs_of_relative { Repo := [], Pkg := [], Name := ['a'], Relative := true } ['r'] ['p']
    rfl rfl rfl

/-! ## The import path in lower case -/

theorem toLower_eq_lowerCaseOf (c : Char) : c.toLower = lowerCaseOf c := by
  unfold Char.toLower lowerCaseOf inRange
  by_cases h : 65 ≤ c.toNat ∧ c.toNat ≤ 90
  · have h1 : (decide ('A'.toNat ≤ c.toNat) && decide (c.toNat ≤ 'Z'.toNat)) = true := by
      simpa using h
    simp only [h1, if_true]
    rw [if_pos h]
  · have h1 : (decide ('A'.toNat ≤ c.toNat) && decide (c.toNat ≤ 'Z'.toNat)) = false := by
      rw [Bool.eq_false_iff]
      intro hh
      exact h (by simpa using hh)
    simp only [h1, Bool.false_eq_true, if_false]
    rw [if_neg h]

theorem stringsToLower_eq_map (x : List Char) : stringsToLower x = x.map lowerCaseOf := by
  unfold stringsToLower
  exact List.map_congr_left (fun c _ => toLower_eq_lowerCaseOf c)

theorem lowerCaseOf_not_upper (c : Char) : inRange 'A' 'Z' (lowerCaseOf c) = false := by
  unfold lowerCaseOf
  by_cases h : inRange 'A' 'Z' c = true
  · rw [if_pos h]
    simp only [inRange, Bool.and_eq_true, decide_eq_true_eq] at h
    have h1 : 65 ≤ c.toNat := h.1
    have h2 : c.toNat ≤ 90 := h.2
    generalize c.toNat = n at h1 h2
    interval_cases n <;> decide
  · rw [if_neg h]
    simpa using h

/-- C16. For an import path whose first component is `d1.d2.….dn` (`n ≥ 1`)
and whose remaining components are `c1, …, cm`, every piece a non-empty string
of letters, digits and underscores, `ImportPathToBazelRepoName` returns the
pieces, every upper-case letter replaced by its lower-case form, joined by
single underscores in the order `dn, …, d1, c1, …, cm`; no upper-case letter
is left in the result. -/
theorem ImportPath_domain_reversal (ds cs : List (List Char)) (hne : ds ≠ [])
    (hd : ∀ d ∈ ds, isWordPiece d = true) (hc : ∀ c ∈ cs, isWordPiece c = true) :
    ImportPathToBazelRepoName (stringsJoin ['/'] (stringsJoin ['.'] ds :: cs)) =
      stringsJoin ['_'] ((ds.reverse ++ cs).map (fun x => x.map lowerCaseOf)) ∧
    ∀ x ∈ ImportPathToBazelRepoName (stringsJoin ['/'] (stringsJoin ['.'] ds :: cs)),
      inRange 'A' 'Z' x = false := by
  have key : ImportPathToBazelRepoName (stringsJoin ['/'] (stringsJoin ['.'] ds :: cs)) =
      stringsJoin ['_'] ((ds.reverse ++ cs).map (fun x => x.map lowerCaseOf)) := by
    rw [importPath_reversed_pieces ds cs hne hd hc]
    congr 1
    exact List.map_congr_left (fun x _ => stringsToLower_eq_map x)
  refine ⟨key, ?_⟩
  intro x hx
  rw [key] at hx
  rcases mem_stringsJoin _ _ _ hx with h | ⟨piece, hp, hxp⟩
  · obtain rfl : x = '_' := by simpa using h
    decide
  · obtain ⟨orig, _, rfl⟩ := List.mem_map.1 hp
    obtain ⟨y, _, rfl⟩ := List.mem_map.1 hxp
    exact lowerCaseOf_not_upper y

/-- Witness of C16 at `Example.COM/Foo_Bar`, which has upper-case letters, and
the lower-case forms of all 26 upper-case letters. -/
theorem ImportPath_domain_reversal_witness :
    ImportPathToBazelRepoName "Example.COM/Foo_Bar".toList = "com_example_foo_bar".toList ∧
    "ABCDEFGHIJKLMNOPQRSTUVWXYZ".toList.map lowerCaseOf =
      "abcdefghijklmnopqrstuvwxyz".toList :=
  ⟨((ImportPath_domain_reversal ["Example".toList, "COM".toList] ["Foo_Bar".toList]
      (by decide) (by decide) (by decide)).1).trans (by decide), by decide⟩


/-! ## Errors of the decoder and invalid escapes -/

theorem not_suffix_of_cons (c : Char) (pre : List Char)
    (h : ¬ ['.', '_'] <:+ (c :: pre)) : ¬ ['.', '_'] <:+ pre :=
  fun hs => h (hs.trans (List.suffix_cons c pre))

theorem decodeScan_unshadowed_invalid (n : Nat) :
    ∀ (pre rest mp : List Char), pre.length ≤ n → invalidEscapeTail rest = true →
      ¬ ['.', '_'] <:+ pre →
      (decodeScan (pre ++ '.' :: '_' :: rest) mp).isError = true := by
  induction n with
  | zero =>
    intro pre rest mp hlen hbad _
    have : pre = [] := List.length_eq_zero.1 (by omega)
    subst this
    cases rest with
    | nil => simp [decodeScan, DecodeResult.isError]
    | cons c2 rest2 =>
      simp only [invalidEscapeTail, Bool.not_eq_true', Bool.or_eq_false_iff, beq_eq_false_iff_ne,
        ne_eq] at hbad
      simp [decodeScan, DecodeResult.isError, hbad.1.1, hbad.1.2, hbad.2]
  | succ n ih =>
    intro pre rest mp hlen hbad hpre
    match pre, hlen, hpre with
    | [], _, _ => exact ih [] rest mp (by simp) hbad (by simp)
    | [c], _, _ =>
      have step := fun mp1 => ih [] rest mp1 (by simp) hbad (by simp)
      simp only [List.nil_append] at step
      simp only [List.singleton_append, decodeScan]
      by_cases hc : c = '_'
      · rw [if_pos hc]; exact step _
      · rw [if_neg hc, if_pos (Or.inr (by decide))]; exact step _
    | [c, c1], hlen, hpre =>
      have step := fun mp1 => ih [c1] rest mp1 (by simp at hlen ⊢; omega) hbad
        (not_suffix_of_cons c [c1] hpre)
      simp only [List.singleton_append] at step
      simp only [List.cons_append, List.nil_append, decodeScan]
      by_cases hc : c = '_'
      · rw [if_pos hc]; exact step _
      · rw [if_neg hc]
        by_cases h2 : c ≠ '.' ∨ c1 ≠ '_'
        · rw [if_pos h2]; exact step _
        · simp only [ne_eq, not_or, Decidable.not_not] at h2
          obtain ⟨rfl, rfl⟩ := h2
          exact absurd (List.suffix_refl _) hpre
    | c :: c1 :: c2 :: pre2, hlen, hpre =>
      have step1 := fun mp1 => ih (c1 :: c2 :: pre2) rest mp1
        (by simp at hlen ⊢; omega) hbad (not_suffix_of_cons c _ hpre)
      have step3 := fun mp1 => ih pre2 rest mp1 (by simp at hlen ⊢; omega) hbad
        (not_suffix_of_cons c2 _ (not_suffix_of_cons c1 _ (not_suffix_of_cons c _ hpre)))
      simp only [List.cons_append] at step1 ⊢
      simp only [decodeScan]
      by_cases hc : c = '_'
      · rw [if_pos hc]; exact step1 _
      · rw [if_neg hc]
        by_cases h2 : c ≠ '.' ∨ c1 ≠ '_'
        · rw [if_pos h2]; exact step1 _
        · rw [if_neg h2]
          by_cases e1 : c2 = '.'
          · rw [if_pos e1]; exact step3 _
          · rw [if_neg e1]
            by_cases e2 : c2 = '-'
            · rw [if_pos e2]; exact step3 _
            · rw [if_neg e2]
              by_cases e3 : inRange 'a' 'z' c2 = true
              · rw [if_pos e3]; exact step3 _
              · rw [if_neg e3]; rfl

/-- C19, amended. The decoder returns an error on `r` only if `r` contains `._`
directly followed by a character that is not `.`, `-` or a lower-case letter,
or by the end of `r`; it does return an error whenever `r` contains such a
sequence that is not itself directly preceded by `._`; and on every `r`
without such a sequence it returns a module path. -/
theorem decode_error_and_invalid_escape (r : List Char) :
    ((BazelRepoNameToModulePathOneToOne r).isError = true →
      containsInvalidEscape r = true) ∧
    (∀ pre rest : List Char, r = pre ++ '.' :: '_' :: rest →
      invalidEscapeTail rest = true → stringsHasSuffix pre ['.', '_'] = false →
      (BazelRepoNameToModulePathOneToOne r).isError = true) ∧
    (containsInvalidEscape r = false →
      ∃ p, BazelRepoNameToModulePathOneToOne r = .ok p) := by
  refine ⟨(decode_error_implies_invalid_escape r).1, ?_,
    (decode_error_implies_invalid_escape r).2⟩
  intro pre rest hr hbad hpre
  rw [decode_eq_decodeScan, hr]
  apply decodeScan_unshadowed_invalid pre.length pre rest [] (le_refl _) hbad
  intro hs
  have : stringsHasSuffix pre ['.', '_'] = true := by
    unfold stringsHasSuffix
    exact List.isSuffixOf_iff_suffix.2 hs
  rw [this] at hpre
  exact Bool.noConfusion hpre

/-- Witness of C19: `"x._A"` and `"._a._"` have an invalid escape that no `._`
precedes, and `"gopkg.in_yaml.v3"` has no invalid escape. -/
theorem decode_error_and_invalid_escape_witness :
    containsInvalidEscape "x._A".toList = true ∧
    (BazelRepoNameToModulePathOneToOne "x._A".toList).isError = true ∧
    (BazelRepoNameToModulePathOneToOne "._a._".toList).isError = true ∧
    ∃ p, BazelRepoNameToModulePathOneToOne "gopkg.in_yaml.v3".toList = .ok p :=
  ⟨(decode_error_and_invalid_escape "x._A".toList).1 (by decide),
    (decode_error_and_invalid_escape "x._A".toList).2.1 ['x'] ['A'] (by decide) (by decide)
      (by decide),
    (decode_error_and_invalid_escape "._a._".toList).2.1 "._a".toList [] (by decide)
      (by decide) (by decide),
    (decode_error_and_invalid_escape "gopkg.in_yaml.v3".toList).2.2 (by decide)⟩


/-! ## The encoding of a decoded name -/

theorem isNeverWritten_of_lower (y : Char) (h : inRange 'a' 'z' y = true) :
    isNeverWritten y = false := by
  simp only [inRange, Bool.and_eq_true, decide_eq_true_eq] at h
  have h1 : 97 ≤ y.toNat := h.1
  have h2 : y.toNat ≤ 122 := h.2
  have hc : y = Char.ofNat y.toNat := (Char.ofNat_toNat y).symm
  generalize y.toNat = n at h1 h2 hc
  subst hc
  interval_cases n <;> decide

theorem escapeRune_never_written (x : Char) :
    ∀ c ∈ escapeRune x, isNeverWritten c = false := by
  unfold escapeRune
  split
  · decide
  · split
    · decide
    · split
      · decide
      · split
        · rename_i hu
          intro c hc
          simp only [List.mem_cons, List.mem_singleton, List.not_mem_nil, or_false] at hc
          rcases hc with rfl | rfl | rfl
          · decide
          · decide
          · exact isNeverWritten_of_lower _ (toUpper_toLower_of_upper x hu).1
        · rename_i h1 h2 h3 h4
          intro c hc
          simp only [List.mem_singleton] at hc
          subst hc
          simp [isNeverWritten, h2, h3, h4]

theorem encode_never_written (p r : List Char)
    (h : ModulePathToBazelRepoNameOneToOne p = some r) :
    ∀ c ∈ r, isNeverWritten c = false := by
  unfold ModulePathToBazelRepoNameOneToOne at h
  split at h
  · simp at h
  · split at h
    · simp at h
    · rename_i padded _
      obtain rfl := Option.some.inj h
      intro c hc
      obtain ⟨x, _, hx⟩ := List.mem_flatMap.1 hc
      exact escapeRune_never_written x c hx

theorem escapeRune_plain (c : Char) (h1 : c ≠ '_') (h2 : isNeverWritten c = false) :
    escapeRune c = [c] := by
  simp only [isNeverWritten, Bool.or_eq_false_iff, beq_eq_false_iff_ne, ne_eq] at h2
  simp [escapeRune, h1, h2.1.1, h2.1.2, h2.2]

theorem escapeRune_toUpper (c : Char) (h : inRange 'a' 'z' c = true) :
    escapeRune c.toUpper = ['.', '_', c] := by
  simp only [inRange, Bool.and_eq_true, decide_eq_true_eq] at h
  have h1 : 97 ≤ c.toNat := h.1
  have h2 : c.toNat ≤ 122 := h.2
  have hc : c = Char.ofNat c.toNat := (Char.ofNat_toNat c).symm
  generalize c.toNat = n at h1 h2 hc
  subst hc
  interval_cases n <;> decide

theorem decodeScan_text (n : Nat) :
    ∀ (d mp p : List Char), d.length ≤ n → (∀ c ∈ d, isNeverWritten c = false) →
      decodeScan d mp = .ok p →
      ∃ t, p = decodeFinish (mp ++ t) ∧ t.flatMap escapeRune = d := by
  induction n with
  | zero =>
    intro d mp p hlen _ h
    have : d = [] := List.length_eq_zero.1 (by omega)
    subst this
    simp only [decodeScan, DecodeResult.ok.injEq] at h
    exact ⟨[], by simp [← h], rfl⟩
  | succ n ih =>
    intro d mp p hlen hclean h
    have cons_step : ∀ (x : Char) (e rest : List Char), d = e ++ rest → escapeRune x = e →
        rest.length ≤ n → decodeScan rest (mp ++ [x]) = .ok p →
        ∃ t, p = decodeFinish (mp ++ t) ∧ t.flatMap escapeRune = d := by
      intro x e rest hd he hl hs
      obtain ⟨t, ht, hE⟩ := ih rest (mp ++ [x]) p hl
        (fun c hc => hclean c (by rw [hd]; exact List.mem_append_right _ hc)) hs
      exact ⟨x :: t, by simpa using ht, by rw [List.flatMap_cons, he, hE, hd]⟩
    match d, hlen, hclean, h, cons_step with
    | [], _, _, h, _ =>
      simp only [decodeScan, DecodeResult.ok.injEq] at h
      exact ⟨[], by simp [← h], rfl⟩
    | [c], _, hclean, h, _ =>
      simp only [decodeScan, DecodeResult.ok.injEq] at h
      refine ⟨[if c = '_' then '/' else c], h.symm, ?_⟩
      by_cases hc : c = '_'
      · subst hc; decide
      · simp [hc, escapeRune_plain c hc (hclean c (by simp))]
    | [c, c1], hlen, hclean, h, cons_step =>
      simp only [decodeScan] at h
      by_cases hc : c = '_'
      · rw [if_pos hc] at h
        subst hc
        exact cons_step '/' ['_'] [c1] rfl (by decide) (by simp at hlen ⊢; omega) h
      · rw [if_neg hc] at h
        by_cases h2 : c ≠ '.' ∨ c1 ≠ '_'
        · rw [if_pos h2] at h
          exact cons_step c [c] [c1] rfl (escapeRune_plain c hc (hclean c (by simp)))
            (by simp at hlen ⊢; omega) h
        · rw [if_neg h2] at h
          exact DecodeResult.noConfusion h
    | c :: c1 :: c2 :: rest, hlen, hclean, h, cons_step =>
      simp only [decodeScan] at h
      have hl1 : (c1 :: c2 :: rest).length ≤ n := by simp at hlen ⊢; omega
      have hl3 : rest.length ≤ n := by simp at hlen ⊢; omega
      by_cases hc : c = '_'
      · rw [if_pos hc] at h
        subst hc
        exact cons_step '/' ['_'] (c1 :: c2 :: rest) rfl (by decide) hl1 h
      · rw [if_neg hc] at h
        by_cases h2 : c ≠ '.' ∨ c1 ≠ '_'
        · rw [if_pos h2] at h
          exact cons_step c [c] (c1 :: c2 :: rest) rfl
            (escapeRune_plain c hc (hclean c (by simp))) hl1 h
        · rw [if_neg h2] at h
          simp only [ne_eq, not_or, Decidable.not_not] at h2
          obtain ⟨rfl, rfl⟩ := h2
          by_cases e1 : c2 = '.'
          · rw [if_pos e1] at h
            subst e1
            exact cons_step '_' ['.', '_', '.'] rest rfl (by decide) hl3 h
          · rw [if_neg e1] at h
            by_cases e2 : c2 = '-'
            · rw [if_pos e2] at h
              subst e2
              exact cons_step '~' ['.', '_', '-'] rest rfl (by decide) hl3 h
            · rw [if_neg e2] at h
              by_cases e3 : inRange 'a' 'z' c2 = true
              · rw [if_pos e3] at h
                exact cons_step c2.toUpper ['.', '_', c2] rest rfl (escapeRune_toUpper c2 e3)
                  hl3 h
              · rw [if_neg e3] at h
                exact DecodeResult.noConfusion h

theorem escapeRune_cases (x : Char) :
    escapeRune x = ['.', '_', '.'] ∨ escapeRune x = ['.', '_', '-'] ∨ escapeRune x = ['_'] ∨
      (inRange 'A' 'Z' x = true ∧ escapeRune x = ['.', '_', x.toLower]) ∨
      escapeRune x = [x] := by
  unfold escapeRune
  split
  · exact Or.inl rfl
  · split
    · exact Or.inr (Or.inl rfl)
    · split
      · exact Or.inr (Or.inr (Or.inl rfl))
      · split
        · rename_i hu
          exact Or.inr (Or.inr (Or.inr (Or.inl ⟨hu, rfl⟩)))
        · exact Or.inr (Or.inr (Or.inr (Or.inr rfl)))

theorem isNeverWritten_of_repoNameChar (c : Char) (h : isBazelRepoNameChar c = true) :
    isNeverWritten c = false := by
  simp only [isBazelRepoNameChar, Bool.or_eq_true, beq_iff_eq] at h
  rcases h with (((h | h) | h) | h) | h
  · exact isNeverWritten_of_lower c h
  · simp only [inRange, Bool.and_eq_true, decide_eq_true_eq] at h
    have h1 : 48 ≤ c.toNat := h.1
    have h2 : c.toNat ≤ 57 := h.2
    have hc : c = Char.ofNat c.toNat := (Char.ofNat_toNat c).symm
    generalize c.toNat = n at h1 h2 hc
    subst hc
    interval_cases n <;> decide
  · subst h; decide
  · subst h; decide
  · subst h; decide

theorem bazelRepoNamePattern_facts (r : List Char) (h : bazelRepoNamePattern r = true) :
    ∃ c rest l, r = c :: rest ∧ inRange 'a' 'z' c = true ∧ r.getLast? = some l ∧
      (inRange 'a' 'z' l = true ∨ inRange '0' '9' l = true) ∧
      ∀ x ∈ r, isNeverWritten x = false := by
  unfold bazelRepoNamePattern at h
  cases r with
  | nil => simp at h
  | cons c rest =>
    simp only [Bool.and_eq_true] at h
    obtain ⟨hc, h2⟩ := h
    cases hl : rest.getLast? with
    | none => rw [hl] at h2; simp at h2
    | some l =>
      rw [hl] at h2
      simp only [Bool.and_eq_true, Bool.or_eq_true, List.all_eq_true] at h2
      obtain ⟨hl1, hall⟩ := h2
      have hne : rest ≠ [] := by rintro rfl; simp at hl
      have hlast : (c :: rest).getLast? = some l := by
        obtain ⟨y, ys, rfl⟩ := List.exists_cons_of_ne_nil hne
        rw [List.getLast?_cons_cons, hl]
      have hsplit : rest = rest.dropLast ++ [l] := by
        have := List.dropLast_append_getLast? l (by simpa using hl)
        exact this.symm
      refine ⟨c, rest, l, rfl, hc, hlast, hl1, ?_⟩
      intro x hx
      rcases List.mem_cons.1 hx with rfl | hx
      · exact isNeverWritten_of_lower _ hc
      · rw [hsplit] at hx
        rcases List.mem_append.1 hx with hx | hx
        · exact isNeverWritten_of_repoNameChar x (hall x hx)
        · obtain rfl : x = l := by simpa using hx
          rcases hl1 with h1 | h1
          · exact isNeverWritten_of_lower _ h1
          · exact isNeverWritten_of_repoNameChar _ (by simp [isBazelRepoNameChar, h1])

theorem encode_of_plain_name (r p : List Char) (hpat : bazelRepoNamePattern r = true)
    (hpre : stringsHasPrefix r ['a', '.', '_', '-'] = false)
    (hsuf : stringsHasSuffix r ['_', 'c', 'o', 'n'] = false)
    (hdec : BazelRepoNameToModulePathOneToOne r = .ok p) :
    ModulePathToBazelRepoNameOneToOne p = some r := by
  obtain ⟨c, rest, l, hr, hc, hlast, hl, hclean⟩ := bazelRepoNamePattern_facts r hpat
  rw [decode_eq_decodeScan] at hdec
  obtain ⟨t, hp, hE⟩ := decodeScan_text r.length r [] p (le_refl _) hclean hdec
  simp only [List.nil_append] at hp
  -- the first character of the scanned text is the leading lower-case letter
  obtain ⟨x, t1, rfl⟩ : ∃ x t1, t = x :: t1 := by
    cases t with
    | nil => rw [hr] at hE; simp at hE
    | cons x t1 => exact ⟨x, t1, rfl⟩
  have hx : x = c ∧ escapeRune x = [x] := by
    rw [List.flatMap_cons, hr] at hE
    rcases escapeRune_cases x with e | e | e | ⟨_, e⟩ | e
    all_goals rw [e] at hE
    all_goals simp only [List.cons_append, List.nil_append, List.cons.injEq] at hE
    · exact absurd hE.1 (by rintro rfl; revert hc; decide)
    · exact absurd hE.1 (by rintro rfl; revert hc; decide)
    · exact absurd hE.1 (by rintro rfl; revert hc; decide)
    · exact absurd hE.1 (by rintro rfl; revert hc; decide)
    · exact ⟨hE.1, e⟩
  obtain ⟨rfl, _⟩ := hx
  -- the last character of the scanned text is a letter or a digit
  obtain ⟨t0, y, ht0⟩ : ∃ t0 y, x :: t1 = t0 ++ [y] := by
    rcases List.eq_nil_or_concat (x :: t1) with e | ⟨t0, y, e⟩
    · simp at e
    · exact ⟨t0, y, by simpa using e⟩
  have hy : unicodeIsDigit y = true ∨ unicodeIsLetter y = true := by
    have hEl : ((x :: t1).flatMap escapeRune).getLast? = (escapeRune y).getLast? := by
      obtain ⟨h0, tl, e0, _⟩ := escapeRune_head y
      rw [ht0, List.flatMap_append, List.flatMap_singleton,
        List.getLast?_append_of_ne_nil _ (by rw [e0]; simp)]
    rw [hE, hlast] at hEl
    rcases escapeRune_cases y with e | e | e | ⟨hu, _⟩ | e
    · rw [e] at hEl
      obtain rfl : l = '.' := by simpa [List.getLast?_cons_cons] using hEl
      exact absurd hl (by decide)
    · rw [e] at hEl
      obtain rfl : l = '-' := by simpa [List.getLast?_cons_cons] using hEl
      exact absurd hl (by decide)
    · rw [e] at hEl
      obtain rfl : l = '_' := by simpa using hEl
      exact absurd hl (by decide)
    · exact Or.inr (by simp [unicodeIsLetter, hu])
    · rw [e] at hEl
      obtain rfl : l = y := by simpa using hEl
      rcases hl with h1 | h1
      · exact Or.inr (by simp [unicodeIsLetter, h1])
      · exact Or.inl h1
  -- the decoder's last step removes nothing
  have hnomatch : escapedLeadingCharacterPattern (x :: t1) = false := by
    rw [Bool.eq_false_iff]
    intro hm
    match t1, hm, hE with
    | c1 :: c2 :: c3 :: c4 :: t5, hm, hE =>
      simp only [escapedLeadingCharacterPattern, Bool.and_eq_true, beq_iff_eq] at hm
      obtain ⟨⟨⟨⟨rfl, rfl⟩, _⟩, _⟩, _⟩ := hm
      have e1 : escapeRune 'a' = ['a'] := by decide
      have e2 : escapeRune '~' = ['.', '_', '-'] := by decide
      simp only [List.flatMap_cons, e1, e2, List.cons_append, List.nil_append] at hE
      rw [← hE] at hpre
      simp [stringsHasPrefix] at hpre
  have hnosuf : ¬ ['/', 'c', 'o', 'n'] <:+ (x :: t1) := by
    rintro ⟨u, hu⟩
    have e : (['/', 'c', 'o', 'n'] : List Char).flatMap escapeRune = ['_', 'c', 'o', 'n'] := by
      decide
    rw [← hu, List.flatMap_append, e] at hE
    have : stringsHasSuffix r ['_', 'c', 'o', 'n'] = true := by
      unfold stringsHasSuffix
      exact List.isSuffixOf_iff_suffix.2 ⟨_, hE⟩
    rw [this] at hsuf
    exact Bool.noConfusion hsuf
  have hfin : decodeFinish (x :: t1) = x :: t1 := by
    unfold decodeFinish
    rw [replaceEscapedLeading_of_no_match _ hnomatch, stringsTrimSuffix_of_not_suffix _ _ hnosuf]
  rw [hp, hfin]
  -- the encoder prepares nothing either
  have hlead : escapeLeading x t1 = x :: t1 := by
    unfold escapeLeading
    rw [lower_not_leading_escape x hc]
    rfl
  have hpad : padTrailing (x :: t1) = some (x :: t1) := by
    unfold padTrailing
    have hg : (x :: t1).getLast? = some y := by rw [ht0, List.getLast?_concat]
    rw [hg]
    have : (!unicodeIsDigit y && !unicodeIsLetter y) = false := by
      rcases hy with h1 | h1 <;> simp [h1]
    simp [this]
  simp only [ModulePathToBazelRepoNameOneToOne, hlead, hpad, hE]

/-- C18, amended. (a) An input with `~`, `/` or an upper-case letter that the
decoder accepts is not the encoding of the path it returns.  (b) For the
encoding `r` of a path of the source alphabet without `./` inside, `/con` at
the end and `a~C.a` at the start, the decoder returns that path, and the
path it returns has the encoding `r`.  (c) For every `r` that matches
`^[a-z][a-z0-9_.-]*[a-z0-9]$`, does not begin with `a._-` and does not end
with `_con`, the path the decoder returns has the encoding `r`.  (d) The two
exclusions of (c) are needed: `ab_con` decodes to `ab` and `a._-b.ax` to `bx`,
which are encoded as `ab` and `bx`. -/
theorem encode_after_decode :
    (∀ r p : List Char, isASCII r = true → (∃ c ∈ r, isNeverWritten c = true) →
      BazelRepoNameToModulePathOneToOne r = .ok p →
      ModulePathToBazelRepoNameOneToOne p ≠ some r) ∧
    (∀ r p0 : List Char, reversibleSource p0 = true →
      ModulePathToBazelRepoNameOneToOne p0 = some r →
      BazelRepoNameToModulePathOneToOne r = .ok p0 ∧
        ∀ p, BazelRepoNameToModulePathOneToOne r = .ok p →
          ModulePathToBazelRepoNameOneToOne p = some r) ∧
    (∀ r p : List Char, bazelRepoNamePattern r = true →
      stringsHasPrefix r ['a', '.', '_', '-'] = false →
      stringsHasSuffix r ['_', 'c', 'o', 'n'] = false →
      BazelRepoNameToModulePathOneToOne r = .ok p →
      ModulePathToBazelRepoNameOneToOne p = some r) ∧
    (bazelRepoNamePattern "ab_con".toList = true ∧
      BazelRepoNameToModulePathOneToOne "ab_con".toList = .ok "ab".toList ∧
      ModulePathToBazelRepoNameOneToOne "ab".toList = some "ab".toList ∧
      bazelRepoNamePattern "a._-b.ax".toList = true ∧
      BazelRepoNameToModulePathOneToOne "a._-b.ax".toList = .ok "bx".toList ∧
      ModulePathToBazelRepoNameOneToOne "bx".toList = some "bx".toList) := by
  refine ⟨?_, ?_, encode_of_plain_name, by decide⟩
  · rintro r p _ ⟨c, hc, hn⟩ _ henc
    rw [encode_never_written p r henc c hc] at hn
    exact Bool.noConfusion hn
  · intro r p0 hrev henc
    obtain ⟨r1, h1, h2⟩ := decode_encode_reversible p0 hrev
    rw [henc] at h1
    obtain rfl := Option.some.inj h1
    refine ⟨h2, ?_⟩
    intro p hp
    rw [h2] at hp
    obtain rfl := DecodeResult.ok.inj hp
    exact henc

/-- Witness of C18: the input `"aB/c"`, the encoding of
`1example.org/foo/foo_bar-`, and the name `gopkg.in_yaml.v3`. -/
theorem encode_after_decode_witness :
    ModulePathToBazelRepoNameOneToOne "aB/c".toList ≠ some "aB/c".toList ∧
    BazelRepoNameToModulePathOneToOne "a._-1.aexample.org_foo_foo._.bar-_con".toList =
      .ok "1example.org/foo/foo_bar-".toList ∧
    ModulePathToBazelRepoNameOneToOne "gopkg.in/yaml.v3".toList =
      some "gopkg.in_yaml.v3".toList :=
  ⟨encode_after_decode.1 "aB/c".toList "aB/c".toList (by decide) (by decide) (by decide),
    (encode_after_decode.2.1 "a._-1.aexample.org_foo_foo._.bar-_con".toList
      "1example.org/foo/foo_bar-".toList (by decide) (by decide)).1,
    encode_after_decode.2.2.1 "gopkg.in_yaml.v3".toList "gopkg.in/yaml.v3".toList
      (by decide) (by decide) (by decide) (by decide)⟩

end label
